import Mathlib

/-!
# Verification of the serper-lead-gen search/deduplication core

A shallow embedding, in Lean 4, of the parts of the repository that the
specification's testable properties talk about:

* `src/utils/deduplicator.py` — `Deduplicator.normalize_url`,
  `Deduplicator.extract_domain`, `Deduplicator.add_url`,
  `Deduplicator.add_domain`, `merge_csv_files`;
* `src/serper_maps.py` — `SerperMapsSearcher.search_maps`;
* `src/serper_search_v2.py` — `EnhancedSerperSearcher.search`,
  `extract_results`, `search_single_query`, checkpointing;
* `src/app.py` — the `flush_and_clear` closure of the campaign runner.

The Python code leans on `urllib.parse.urlparse`, so that function (scheme
detection, netloc splitting, fragment/query removal, parameter splitting,
the WHATWG control-character cleanup, and the bracketed-host `ValueError`)
is embedded as well, for CPython 3.10+ semantics.  Strings are modelled as
`List Char`; `str.lower()` is modelled on the ASCII range (URLs and all the
inputs of interest are ASCII).  Remote HTTP calls are modelled by explicit
outcome values (transport failure / HTTP success) supplied by an oracle, and
mutation is modelled by explicit state passing.
-/

namespace SerperLeadGen

/-! ## ASCII modelling of Python string primitives -/

/-- Python `str.lower()` restricted to ASCII: `Char.toLower` maps `A`–`Z` to
`a`–`z` and leaves every other character unchanged, which agrees with CPython
on the ASCII range. -/
def listLower (l : List Char) : List Char := l.map Char.toLower

/-- Python `"..."dropWhile`-style `str.rstrip('/')`: remove every trailing
`'/'`. -/
def rstripSlashes (l : List Char) : List Char :=
  (l.reverse.dropWhile (fun c => c == '/')).reverse

/-- Characters Python's `str.strip()` removes (the ASCII whitespace
characters; Python also strips non-ASCII Unicode whitespace, which does not
occur in the data of interest). -/
def isPySpace (c : Char) : Bool :=
  c == ' ' || c == '\t' || c == '\n' || c == '\x0d' || c == '\x0b' || c == '\x0c'

/-- Python `str.strip()` (ASCII fragment): drop whitespace from both ends. -/
def pyStrip (s : String) : String :=
  ⟨((s.data.dropWhile isPySpace).reverse.dropWhile isPySpace).reverse⟩

/-! ## `urllib.parse.urlparse` (CPython 3.10+)

`urlsplit` first lstrips C0-control-or-space characters, removes every tab,
carriage return and line feed, then splits off `scheme` (an initial run of
scheme characters whose first character is an ASCII letter, followed by a
colon not in position 0), `netloc` (after a literal `//`, up to the first of
`/?#`, raising `ValueError` on an unmatched `[`/`]`), then the fragment
(after the first `#`) and the query (after the first `?`).  `urlparse`
additionally splits `;parameters` off the last path segment.  The embedded
parser returns `none` exactly where CPython raises `ValueError`; the `query`,
`fragment` and parameter strings are discarded because the repository only
ever reads `.scheme`, `.netloc` and `.path`. -/

/-- The `scheme_chars` of `urllib.parse`: ASCII letters, digits, `+`, `-`, `.`. -/
def isSchemeChar (c : Char) : Bool :=
  c.isAlpha || c.isDigit || c == '+' || c == '-' || c == '.'

/-- WHATWG cleanup at the top of `urlsplit`: lstrip C0 controls and spaces
(code points ≤ 32), then delete every tab, CR and LF. -/
def cleanURL (l : List Char) : List Char :=
  (l.dropWhile (fun c => c.toNat ≤ 32)).filter
    (fun c => !(c == '\t' || c == '\x0d' || c == '\n'))

/-- Scheme detection of `urlsplit`: if the first colon is at a positive
position, the first character is an ASCII letter and everything before the
colon is a scheme character, the scheme is that prefix lower-cased and the
rest follows the colon; otherwise the scheme is empty and the input is left
whole. -/
def splitScheme (l : List Char) : List Char × List Char :=
  let pre := l.takeWhile (fun c => c != ':')
  match pre with
  | [] => ([], l)
  | c :: _ =>
    if pre.length < l.length && c.isAlpha && pre.all isSchemeChar then
      (listLower pre, l.drop (pre.length + 1))
    else ([], l)

/-- Characters ending the netloc in `_splitnetloc`. -/
def isNetlocEnd (c : Char) : Bool := c == '/' || c == '?' || c == '#'

/-- Model of `_splitnetloc`: after a leading `//`, the netloc runs to the first of
`/`, `?`, `#`; without the leading `//` there is no netloc. -/
def splitNetloc (l : List Char) : List Char × List Char :=
  match l with
  | c1 :: c2 :: rest =>
    if c1 = '/' ∧ c2 = '/' then
      (rest.takeWhile (fun c => !isNetlocEnd c), rest.dropWhile (fun c => !isNetlocEnd c))
    else ([], l)
  | _ => ([], l)

/-- Model of `url.split(sep, 1)` guarded by `sep in url`: everything before the first
occurrence, and everything after it (the whole input and `""` when absent). -/
def splitTail (sep : Char) (l : List Char) : List Char × List Char :=
  if l.contains sep then
    (l.takeWhile (fun c => c != sep), (l.dropWhile (fun c => c != sep)).drop 1)
  else (l, [])

/-- Model of `_splitparams` as used by `urlparse`: when the path contains `;`, split
at the first `;` at or after the last `/` (at the first `;` overall when the
path has no `/`); keep only the part before it. -/
def lastSegment (p : List Char) : List Char :=
  (p.reverse.takeWhile (fun c => c != '/')).reverse

def dropParams (p : List Char) : List Char :=
  if p.contains ';' then
    if p.contains '/' then
      if (lastSegment p).contains ';' then
        p.take (p.length - (lastSegment p).length)
          ++ (lastSegment p).takeWhile (fun c => c != ';')
      else p
    else p.takeWhile (fun c => c != ';')
  else p

/-- The components of `urlparse` that the repository reads. -/
structure UrlParts where
  scheme : List Char
  netloc : List Char
  path : List Char
  deriving DecidableEq, Repr

/-- Model of `urlsplit` on a character list; `none` models the `ValueError` raised on
a netloc with an unmatched bracket. -/
def urlsplitList (l0 : List Char) : Option UrlParts :=
  let l := cleanURL l0
  let s := splitScheme l
  let n := splitNetloc s.2
  if n.1.contains '[' != n.1.contains ']' then none
  else
    let f := splitTail '#' n.2
    let q := splitTail '?' f.1
    some ⟨s.1, n.1, q.1⟩

/-- Model of `urlparse` on a character list: `urlsplit`, then parameters split off the
path. -/
def urlparseList (l : List Char) : Option UrlParts :=
  (urlsplitList l).map (fun r => { r with path := dropParams r.path })

/-! ## `Deduplicator` (src/utils/deduplicator.py) -/

/-- Model of `Deduplicator.normalize_url`: rebuild `scheme://netloc+path` from the
parse, strip trailing slashes, lower-case; on `ValueError` (bare `except`)
return the lower-cased input unchanged. -/
def normalize_url (s : String) : String :=
  match urlparseList s.data with
  | some r =>
    ⟨listLower (rstripSlashes (r.scheme ++ ':' :: '/' :: '/' :: (r.netloc ++ r.path)))⟩
  | none => ⟨listLower s.data⟩

/-- Model of `re.sub(r'^www\.', '', domain)`: remove one leading, literal, lower-case
`www.` prefix (the regex is case-sensitive and anchored). -/
def stripWwwPrefix : List Char → List Char
  | 'w' :: 'w' :: 'w' :: '.' :: rest => rest
  | l => l

/-- Model of `Deduplicator.extract_domain`: `parsed.netloc or parsed.path`, then the
case-sensitive `www.`-strip, then lower-case; on `ValueError` return the
lower-cased input unchanged. -/
def extract_domain (s : String) : String :=
  match urlparseList s.data with
  | some r =>
    let domain := if r.netloc.isEmpty then r.path else r.netloc
    ⟨listLower (stripWwwPrefix domain)⟩
  | none => ⟨listLower s.data⟩

/-- A CSV row as `csv.DictReader` presents it: field-name/value pairs. -/
abbrev Row := List (String × String)

/-- Model of `row.get(key, '')`: the value of the first matching field, `""` when the
field is missing. -/
def Row.get (row : Row) (k : String) : String :=
  ((row.find? (fun kv => kv.1 == k)).map (fun kv => kv.2)).getD ""

/-- The `Deduplicator` state: the two membership sets and the first-seen
record map. -/
structure Deduplicator where
  seen_urls : List String
  seen_domains : List String
  url_to_record : List (String × Row)
  deriving DecidableEq, Repr

/-- Fresh `Deduplicator()` instance with empty membership sets. -/
def Deduplicator.fresh : Deduplicator := ⟨[], [], []⟩

/-- Model of `Deduplicator.add_url`: normalize, reject if seen, otherwise record the
normalized URL (and the record, when one is passed and truthy) and accept.
Returns the accept flag and the updated state. -/
def Deduplicator.add_url (d : Deduplicator) (url : String) (record : Option Row) :
    Bool × Deduplicator :=
  let normalized := normalize_url url
  if normalized ∈ d.seen_urls then (false, d)
  else
    let d := { d with seen_urls := normalized :: d.seen_urls }
    match record with
    | some r =>
      if r.isEmpty then (true, d)   -- `if record:` — an empty dict is falsy
      else (true, { d with url_to_record := (normalized, r) :: d.url_to_record })
    | none => (true, d)

/-- Model of `Deduplicator.add_domain`: lower-case, reject if seen, else record. -/
def Deduplicator.add_domain (d : Deduplicator) (domain : String) :
    Bool × Deduplicator :=
  let domain : String := ⟨listLower domain.data⟩
  if domain ∈ d.seen_domains then (false, d)
  else (true, { d with seen_domains := domain :: d.seen_domains })

/-- Submit a sequence of URLs to `add_url` (no records), collecting the
returned flags in order together with the final state. -/
def runAddUrls (d : Deduplicator) : List String → List Bool × Deduplicator
  | [] => ([], d)
  | u :: rest =>
    let r1 := d.add_url u none
    let r2 := runAddUrls r1.2 rest
    (r1.1 :: r2.1, r2.2)

/-! ## `merge_csv_files` (src/utils/deduplicator.py)

File I/O is abstracted: the input is the list of files, each either
`some rows` (readable, presented as `csv.DictReader` rows) or `none`
(`FileNotFoundError`/other exception — the file is skipped).  The function
returns `(total_rows, merged_rows, duplicates_removed)` together with the
merged rows and the final deduplicator, mirroring the tuple
`(total_rows, len(all_rows), total_rows - len(all_rows))` and the local
state of the source. -/

/-- One iteration of the row loop of `merge_csv_files`: the accumulator is
`(all_rows, deduper)`.  Python evaluates `if url and deduper.add_url(url,
record=row)` — with an empty key the deduplicator is never consulted. -/
def mergeRow (deduplicate_by : String) (acc : List Row × Deduplicator) (row : Row) :
    List Row × Deduplicator :=
  if deduplicate_by == "url" then
    let url := pyStrip (row.get "url")
    if url != "" then
      let res := acc.2.add_url url (some row)
      if res.1 then (acc.1 ++ [row], res.2) else (acc.1, res.2)
    else acc
  else if deduplicate_by == "domain" then
    let domain := pyStrip (row.get "domain")
    if domain != "" then
      let res := acc.2.add_domain domain
      if res.1 then (acc.1 ++ [row], res.2) else (acc.1, res.2)
    else acc
  else (acc.1 ++ [row], acc.2)

/-- The outcome of `merge_csv_files` (writing of the output file elided —
it serializes `all_rows` and changes no counts). -/
structure MergeOutcome where
  total_rows : Nat
  all_rows : List Row
  deduper : Deduplicator
  deriving Repr

/-- Model of `merge_csv_files` over the readable files' rows. -/
def merge_csv_files (files : List (Option (List Row))) (deduplicate_by : String) :
    MergeOutcome :=
  let readable := files.filterMap id
  let rows := readable.flatten
  let folded := rows.foldl (mergeRow deduplicate_by) ([], Deduplicator.fresh)
  ⟨rows.length, folded.1, folded.2⟩

/-- The returned triple `(total_rows, len(all_rows), duplicates)` where
`duplicates = total_rows - len(all_rows)`. -/
def mergeCounts (files : List (Option (List Row))) (deduplicate_by : String) :
    Nat × Nat × Nat :=
  let o := merge_csv_files files deduplicate_by
  (o.total_rows, o.all_rows.length, o.total_rows - o.all_rows.length)

/-! ## `SerperMapsSearcher.search_maps` (src/serper_maps.py)

The HTTP round trip is an oracle value.  `requests.post` + `raise_for_status`
either raises a `RequestException` (`transportError`: caught, `{}` returned,
counter untouched) or succeeds — and then `api_call_count` is incremented
*before* `response.json()` is evaluated, so a body that fails to parse
(`badJson`, caught by the same handler in requests ≥ 2.27) still counts.
A parsed body is `ok data`.  The returned dictionary is `none` for `{}`
(falsy) and `some data` otherwise. -/

/-- Outcome of one attempted HTTP call. -/
inductive CallOutcome (R : Type) where
  | transportError : CallOutcome R
  | badJson : CallOutcome R
  | ok : R → CallOutcome R
  deriving DecidableEq, Repr

/-- Did `raise_for_status()` pass (the attempt reached a 2xx response)? -/
def CallOutcome.httpSuccess {R : Type} : CallOutcome R → Bool
  | .transportError => false
  | .badJson => true
  | .ok _ => true

/-- Model of `search_maps`, as a function of the current `api_call_count` and the
call outcome: the new counter value and the returned response (`none` = the
empty dict `{}`).  Total — every failure is caught. -/
def search_maps {R : Type} (api_call_count : Nat) (outcome : CallOutcome R) :
    Nat × Option R :=
  match outcome with
  | .transportError => (api_call_count, none)
  | .badJson => (api_call_count + 1, none)
  | .ok data => (api_call_count + 1, some data)

/-- A sequence of `search_maps` calls: the final counter and the responses
in order. -/
def runMapsCalls {R : Type} (api_call_count : Nat) :
    List (CallOutcome R) → Nat × List (Option R)
  | [] => (api_call_count, [])
  | o :: rest =>
    let (n, r) := search_maps api_call_count o
    let (n', rs) := runMapsCalls n rest
    (n', r :: rs)

/-! ## `EnhancedSerperSearcher` (src/serper_search_v2.py) -/

/-- One item of an `organic`/`ads`/`shopping` array, with the fields
`extract_results` reads (`item.get(key, '')`). -/
structure Item where
  link : String
  title : String
  snippet : String
  position : String
  deriving DecidableEq, Repr

/-- A result record as built by `extract_results`. -/
structure SRecord where
  url : String
  domain : String
  title : String
  description : String
  source_type : String
  query : String
  city : String
  position : String
  deriving DecidableEq, Repr

/-- Model of `EnhancedSerperSearcher.extract_domain` (distinct from the
deduplicator's): the netloc with a leading `www.` dropped, *not*
lower-cased, and `''` on a parse error. -/
def serper_extract_domain (s : String) : String :=
  match urlparseList s.data with
  | some r =>
    match r.netloc with
    | 'w' :: 'w' :: 'w' :: '.' :: rest => ⟨rest⟩
    | l => ⟨l⟩
  | none => ""

/-- A truthy parsed web-search response: the three result arrays plus the
`relatedSearches` queries (absent keys read as `[]`/empty). -/
structure WebPage where
  organic : List Item
  ads : List Item
  shopping : List Item
  relatedSearches : List String
  deriving DecidableEq, Repr

/-- Outcome of one `search()` page call, as `search_single_query` sees it:
`failed` = `RequestException` before the counter bump (returns `{}`),
`empty` = HTTP success whose parsed body is falsy (counter bumped, `{}`
returned — this also covers a body that fails to parse), `page` = a truthy
parsed body. -/
inductive SearchOutcome where
  | failed : SearchOutcome
  | empty : SearchOutcome
  | page : WebPage → SearchOutcome
  deriving DecidableEq, Repr

/-- The mutable state of an `EnhancedSerperSearcher`. -/
structure SearcherState where
  deduplicator : Deduplicator
  all_results : List SRecord
  api_call_count : Nat
  related_searches : List (String × List String)
  enable_checkpoints : Bool
  last_checkpoint_count : Nat
  checkpoint_sink : List SRecord
  deriving DecidableEq, Repr

/-- Initial state of `EnhancedSerperSearcher(api_key)` with checkpointing enabled. -/
def SearcherState.init : SearcherState :=
  ⟨Deduplicator.fresh, [], 0, [], true, 0, []⟩

/-- The state effect of one `search()` call (counter and related-searches
capture); the response returned to the caller is tracked separately. -/
def applySearchCall (st : SearcherState) (query : String) :
    SearchOutcome → SearcherState
  | .failed => st
  | .empty => { st with api_call_count := st.api_call_count + 1 }
  | .page p =>
    let st := { st with api_call_count := st.api_call_count + 1 }
    if p.relatedSearches.isEmpty then st
    else { st with related_searches := st.related_searches ++ [(query, p.relatedSearches)] }

/-- Model of `extract_results`: walk the items, skipping empty links and URLs the
deduplicator rejects; return the updated deduplicator and the new records
in order. -/
def extract_results (d : Deduplicator) (items : List Item) (query : String)
    (source_type : String) (city : Option String) : Deduplicator × List SRecord :=
  items.foldl
    (fun acc item =>
      if item.link == "" then acc
      else
        let (isNew, d') := acc.1.add_url item.link none
        if isNew then
          (d', acc.2 ++ [{ url := item.link
                           domain := serper_extract_domain item.link
                           title := item.title
                           description := item.snippet
                           source_type := source_type
                           query := query
                           city := city.getD ""
                           position := item.position }])
        else (d', acc.2))
    (d, [])

/-- Model of `save_checkpoint`: append the results accumulated since the last
checkpoint to the checkpoint file (modelled as `checkpoint_sink`); a no-op
when checkpointing is disabled or nothing is new. -/
def save_checkpoint (st : SearcherState) : SearcherState :=
  if !st.enable_checkpoints then st
  else if st.all_results.isEmpty then st
  else
    let new_results := st.all_results.drop st.last_checkpoint_count
    if new_results.isEmpty then st
    else { st with checkpoint_sink := st.checkpoint_sink ++ new_results
                   last_checkpoint_count := st.all_results.length }

/-- Model of `check_and_save_checkpoint`: save when ≥ 50 results accumulated since
the last checkpoint. -/
def check_and_save_checkpoint (st : SearcherState) : SearcherState :=
  if !st.enable_checkpoints then st
  else if st.all_results.length - st.last_checkpoint_count ≥ 50 then save_checkpoint st
  else st

/-- The observable outcome of `search_single_query`: the final state, the
returned count of new records, and (model instrumentation) the page numbers
for which a backend request was issued, in order. -/
structure SSQOutcome where
  state : SearcherState
  page_results : Nat
  requested : List Nat
  deriving Repr

/-- The body of one iteration of the page loop for a truthy response:
organic extraction always, ads and shopping on page 1 only. -/
def processPage (st : SearcherState) (p : WebPage) (query : String)
    (city : Option String) (page : Nat) : SearcherState × Nat :=
  let (d1, organicRecs) := extract_results st.deduplicator p.organic query "organic" city
  let st := { st with deduplicator := d1, all_results := st.all_results ++ organicRecs }
  let count := organicRecs.length
  if page == 1 then
    let (d2, adRecs) := extract_results st.deduplicator p.ads query "ads" city
    let st := { st with deduplicator := d2, all_results := st.all_results ++ adRecs }
    let (d3, shopRecs) := extract_results st.deduplicator p.shopping query "shopping" city
    let st := { st with deduplicator := d3, all_results := st.all_results ++ shopRecs }
    (st, count + adRecs.length + shopRecs.length)
  else (st, count)

/-- The page loop of `search_single_query`, from page number `page` with
`fuel` pages left in the budget.  A falsy response `continue`s; a truthy
response is processed and, when its organic array is shorter than 10,
`break`s. -/
def searchPagesLoop (backend : Nat → SearchOutcome) (query : String)
    (city : Option String) : SearcherState → Nat → Nat → SSQOutcome
  | st, _, 0 => ⟨st, 0, []⟩
  | st, page, fuel + 1 =>
    let outcome := backend page
    let st := applySearchCall st query outcome
    match outcome with
    | .failed =>
      let r := searchPagesLoop backend query city st (page + 1) fuel
      ⟨r.state, r.page_results, page :: r.requested⟩
    | .empty =>
      let r := searchPagesLoop backend query city st (page + 1) fuel
      ⟨r.state, r.page_results, page :: r.requested⟩
    | .page p =>
      let pr := processPage st p query city page
      if p.organic.length < 10 then ⟨pr.1, pr.2, [page]⟩
      else
        let r := searchPagesLoop backend query city pr.1 (page + 1) fuel
        ⟨r.state, pr.2 + r.page_results, page :: r.requested⟩

/-- The page budget of `search_single_query`:
`min((total_results + 10 - 1) // 10, 10)`. -/
def totalPages (total_results : Nat) : Nat :=
  min ((total_results + 10 - 1) / 10) 10

/-- Model of `search_single_query(query, gl, hl, total_results, city)`: run the page
loop from page 1 over the capped budget, then `check_and_save_checkpoint`,
returning the count of new records. -/
def search_single_query (backend : Nat → SearchOutcome) (st : SearcherState)
    (query : String) (total_results : Nat) (city : Option String) : SSQOutcome :=
  let r := searchPagesLoop backend query city st 1 (totalPages total_results)
  ⟨check_and_save_checkpoint r.state, r.page_results, r.requested⟩

/-! ## `flush_and_clear` (src/app.py, campaign runner)

The closure captures `total_saved_count`, the `CloudStorage` handle `cs`
and `cloud_search_id`.  The buffer is a Python list mutated in place; the
sink is the sequence of records handed to `cs.save_results`; the progress
updates are the values handed to `cs.update_search_count`.  The function
body ends without a `return expr`, so its value is always `None`
(modelled as `none : Option Nat`). -/

/-- The state touched by `flush_and_clear`. -/
structure FlushState (α : Type) where
  buffer : List α
  sink : List α
  total_saved_count : Nat
  progress_updates : List Nat
  cloud_search_id : Bool   -- truthiness of `cloud_search_id`
  available : Bool         -- `cs.available`
  deriving DecidableEq, Repr

/-- Model of `flush_and_clear(results_list)`: early return on an empty (falsy)
buffer; persist and count only when a cloud session exists and the sink is
available; always clear the buffer (`del results_list[:]`); always return
`None`. -/
def flush_and_clear {α : Type} (s : FlushState α) : FlushState α × Option Nat :=
  if s.buffer.isEmpty then (s, none)
  else if s.cloud_search_id && s.available then
    let total := s.total_saved_count + s.buffer.length
    ({ s with sink := s.sink ++ s.buffer
              total_saved_count := total
              progress_updates := s.progress_updates ++ [total]
              buffer := [] }, none)
  else ({ s with buffer := [] }, none)

/-! ## Helper lemmas: `Char.toLower` -/

theorem char_eq_of_toNat_eq {a b : Char} (h : a.toNat = b.toNat) : a = b := by
  have hv : a.val = b.val := by
    apply UInt32.eq_of_val_eq
    exact Fin.ext h
  exact Char.eq_of_val_eq hv

theorem toNat_ofNat_lt {n : Nat} (h : n < 55296) : (Char.ofNat n).toNat = n := by
  unfold Char.ofNat
  rw [dif_pos (Or.inl h)]
  simp [Char.ofNatAux, Char.toNat, UInt32.toNat, BitVec.toNat_ofNatLt]

theorem toLower_of_not_upper {c : Char} (h : ¬(65 ≤ c.toNat ∧ c.toNat ≤ 90)) :
    c.toLower = c := by
  unfold Char.toLower
  rw [if_neg h]

theorem toNat_toLower_of_upper {c : Char} (h : 65 ≤ c.toNat ∧ c.toNat ≤ 90) :
    c.toLower.toNat = c.toNat + 32 := by
  unfold Char.toLower
  rw [if_pos h]
  exact toNat_ofNat_lt (by omega)

/-- The map `toLower` lands in `[97, 122]` or leaves the character alone. -/
theorem toLower_cases (c : Char) :
    (97 ≤ c.toLower.toNat ∧ c.toLower.toNat ≤ 122) ∨ c.toLower = c := by
  by_cases h : 65 ≤ c.toNat ∧ c.toNat ≤ 90
  · left
    rw [toNat_toLower_of_upper h]
    omega
  · right
    exact toLower_of_not_upper h

theorem toLower_idem (c : Char) : c.toLower.toLower = c.toLower := by
  rcases toLower_cases c with h | h
  · exact toLower_of_not_upper (by omega)
  · rw [h, h]

/-- For a target outside the lower-case letters, `toLower` reaches it only
from itself. -/
theorem eq_of_toLower_eq_of_not_lower {x : Char} (hx : ¬(97 ≤ x.toNat ∧ x.toNat ≤ 122))
    {c : Char} (h : c.toLower = x) : c = x := by
  rcases toLower_cases c with h2 | h2
  · exact absurd (h ▸ h2) hx
  · rw [← h2, h]

theorem listLower_idem (l : List Char) : listLower (listLower l) = listLower l := by
  simp only [listLower, List.map_map]
  apply List.map_congr_left
  intro c _
  exact toLower_idem c

theorem listLower_append (a b : List Char) :
    listLower (a ++ b) = listLower a ++ listLower b := List.map_append _ a b

/-! ## Helper lemmas: `takeWhile`/`dropWhile`/`rstripSlashes` -/

theorem takeWhile_append_all {p : Char → Bool} {a : List Char} (b : List Char)
    (h : ∀ c ∈ a, p c = true) : (a ++ b).takeWhile p = a ++ b.takeWhile p := by
  induction a with
  | nil => simp
  | cons x xs ih =>
    have hx : p x = true := h x (by simp)
    simp only [List.cons_append, List.takeWhile_cons, hx, if_true]
    rw [ih (fun c hc => h c (by simp [hc]))]

theorem dropWhile_append_all {p : Char → Bool} {a : List Char} (b : List Char)
    (h : ∀ c ∈ a, p c = true) : (a ++ b).dropWhile p = b.dropWhile p := by
  induction a with
  | nil => simp
  | cons x xs ih =>
    have hx : p x = true := h x (by simp)
    simp only [List.cons_append, List.dropWhile_cons, hx, if_true]
    exact ih (fun c hc => h c (by simp [hc]))

theorem dropWhile_eq_self_of_head {p : Char → Bool} {x : Char} (l : List Char)
    (hx : p x = false) : (x :: l).dropWhile p = x :: l := by
  simp [List.dropWhile_cons, hx]

/-- Unfolding `rstripSlashes` over an append, split on whether the right part
vanishes. -/
theorem rstrip_append (a b : List Char) :
    rstripSlashes (a ++ b)
      = if rstripSlashes b = [] then rstripSlashes a else a ++ rstripSlashes b := by
  unfold rstripSlashes
  rw [List.reverse_append, List.dropWhile_append]
  by_cases h : (b.reverse.dropWhile (fun c => c == '/')).isEmpty
  · rw [if_pos h]
    have : b.reverse.dropWhile (fun c => c == '/') = [] := by
      simpa [List.isEmpty_iff] using h
    rw [if_pos (by simp [this])]
  · rw [if_neg h]
    have hne : b.reverse.dropWhile (fun c => c == '/') ≠ [] := by
      simpa [List.isEmpty_iff] using h
    rw [if_neg (by simp [hne]), List.reverse_append, List.reverse_reverse]

theorem dropWhile_eq_self_of_all {p : Char → Bool} {l : List Char}
    (h : ∀ c ∈ l, p c = false) : l.dropWhile p = l := by
  cases l with
  | nil => rfl
  | cons x xs => simp [List.dropWhile_cons, h x (by simp)]

/-- A list without `'/'` is unchanged by `rstripSlashes`. -/
theorem rstrip_of_no_slash {a : List Char} (h : ∀ c ∈ a, ¬c = '/') :
    rstripSlashes a = a := by
  unfold rstripSlashes
  rw [dropWhile_eq_self_of_all, List.reverse_reverse]
  intro c hc
  simpa using h c (by simpa using hc)

/-- The output of `rstripSlashes` is empty or does not end in `'/'`. -/
theorem rstrip_last_ne_slash (l : List Char) :
    rstripSlashes l = [] ∨
      ∃ a c, rstripSlashes l = a ++ [c] ∧ (c == '/') = false := by
  unfold rstripSlashes
  rcases hd : l.reverse.dropWhile (fun c => c == '/') with _ | ⟨x, xs⟩
  · left
    simp
  · right
    refine ⟨xs.reverse, x, by simp, ?_⟩
    have := List.head?_dropWhile_not (fun c => c == '/') l.reverse
    rw [hd] at this
    simpa using this

/-- The map `rstripSlashes` fixes a list already ending in a non-slash. -/
theorem rstrip_fix {a : List Char} {c : Char} (hc : (c == '/') = false) :
    rstripSlashes (a ++ [c]) = a ++ [c] := by
  unfold rstripSlashes
  rw [List.reverse_append]
  simp only [List.reverse_cons, List.reverse_nil, List.nil_append, List.singleton_append,
    List.dropWhile_cons, hc]
  simp

/-- Members of the `rstripSlashes` output come from the input. -/
theorem mem_rstrip {x : Char} {l : List Char} (h : x ∈ rstripSlashes l) : x ∈ l := by
  unfold rstripSlashes at h
  rw [List.mem_reverse] at h
  have := (List.dropWhile_sublist (l := l.reverse) (fun c => c == '/')).mem h
  simpa using this

/-! ## Claim C4 — the three-URL normalization scenario -/

/-- C4, counterexample.  The claim asserts that `"https://a.com/x"`,
`"https://a.com/x/"` and `"https://www.a.com/x"` all normalize to the same
identity and that `add_url` answers `true, false, false`.  In the code
`normalize_url` keeps the `www.` prefix (only `extract_domain` strips it),
so the third URL is a distinct identity and the answers are
`true, false, true`. -/
theorem c4_counterexample :
    (runAddUrls Deduplicator.fresh
        ["https://a.com/x", "https://a.com/x/", "https://www.a.com/x"]).1
      = [true, false, true]
    ∧ normalize_url "https://www.a.com/x" ≠ normalize_url "https://a.com/x" := by
  decide

/-- C4, amended: the first two URLs normalize to the identity
`"https://a.com/x"` (the trailing slash is stripped), while
`"https://www.a.com/x"` normalizes to the distinct identity
`"https://www.a.com/x"` because normalization does not strip `www.`;
consequently `add_url` accepts the first, rejects the second as a
duplicate, and accepts the third: `true, false, true`. -/
theorem c4_amended :
    normalize_url "https://a.com/x" = "https://a.com/x"
    ∧ normalize_url "https://a.com/x/" = "https://a.com/x"
    ∧ normalize_url "https://www.a.com/x" = "https://www.a.com/x"
    ∧ (runAddUrls Deduplicator.fresh
        ["https://a.com/x", "https://a.com/x/", "https://www.a.com/x"]).1
      = [true, false, true] := by
  decide

/-! ## Claim C9 — `extract_domain` -/

/-- The claim's reading of `extract_domain`: the lower-cased host with a
leading `www.` stripped on parsable input, the lower-cased input unchanged
on unparsable input. -/
def extract_domain_claimed (s : String) : String :=
  match urlparseList s.data with
  | some r => ⟨stripWwwPrefix (listLower r.netloc)⟩
  | none => ⟨listLower s.data⟩

/-- C9, counterexample.  On the parsable URL `"https://WWW.Example.com"` the
code strips `www.` case-sensitively *before* lower-casing, so the upper-case
prefix survives (as `www.`); and on the parsable but host-less input
`"Example.com/Page"` the code falls back to the path rather than the (empty)
host. -/
theorem c9_counterexample :
    extract_domain "https://WWW.Example.com" = "www.example.com"
    ∧ extract_domain_claimed "https://WWW.Example.com" = "example.com"
    ∧ extract_domain "https://WWW.Example.com"
        ≠ extract_domain_claimed "https://WWW.Example.com"
    ∧ extract_domain "Example.com/Page" = "example.com/page"
    ∧ extract_domain_claimed "Example.com/Page" = "" := by
  decide

/-- The amended description of `extract_domain`: never throws (the function
is total); on parsable input the result is the host — or, when the host is
empty, the path — with one leading *lower-case* `www.` prefix stripped
before lower-casing; on unparsable input the lower-cased input unchanged. -/
def extract_domain_described (s : String) : String :=
  match urlparseList s.data with
  | some r =>
    let host_or_path := if r.netloc = [] then r.path else r.netloc
    ⟨listLower (stripWwwPrefix host_or_path)⟩
  | none => ⟨listLower s.data⟩

/-- C9, amended: `extract_domain` never throws and behaves as
`extract_domain_described`; in particular its output never contains an
upper-case ASCII letter (it is lower-cased). -/
theorem c9_extract_domain_amended (u : String) :
    extract_domain u = extract_domain_described u
    ∧ ∀ c ∈ (extract_domain u).data, ¬(65 ≤ c.toNat ∧ c.toNat ≤ 90) := by
  constructor
  · unfold extract_domain extract_domain_described
    rcases h : urlparseList u.data with _ | r
    · rfl
    · simp only []
      rcases hn : r.netloc with _ | ⟨c, cs⟩
      · simp [hn]
      · simp [hn]
  · intro c hc
    have hlow : ∃ y, Char.toLower y = c := by
      unfold extract_domain at hc
      rcases h : urlparseList u.data with _ | r <;> rw [h] at hc
      · simp only [listLower, List.mem_map] at hc
        obtain ⟨y, _, hy⟩ := hc
        exact ⟨y, hy⟩
      · simp only [listLower, List.mem_map] at hc
        obtain ⟨y, _, hy⟩ := hc
        exact ⟨y, hy⟩
    obtain ⟨y, hy⟩ := hlow
    rw [← hy]
    by_cases hup : 65 ≤ y.toNat ∧ y.toNat ≤ 90
    · rw [toNat_toLower_of_upper hup]
      omega
    · rw [toLower_of_not_upper hup]
      exact hup

/-- C9, witness: the second conjunct applied at
`u = "https://WWW.Example.com"`, `c = 'w'` (which is a member of the
computed output `"www.example.com"`). -/
theorem c9_extract_domain_amended_witness : ¬(65 ≤ 'w'.toNat ∧ 'w'.toNat ≤ 90) :=
  (c9_extract_domain_amended "https://WWW.Example.com").2 'w' (by decide)

/-! ## Claim C8 — idempotence of `normalize_url` (counterexample part) -/

/-- C8, counterexample.  `normalize_url` is not idempotent on every string:
a scheme-less input gains a `"://"` prefix on every pass.  On
`u = "example.com"` the first pass yields `"://example.com"` and the second
`"://://example.com"`. -/
theorem c8_counterexample :
    normalize_url "example.com" = "://example.com"
    ∧ normalize_url (normalize_url "example.com") = "://://example.com"
    ∧ normalize_url (normalize_url "example.com") ≠ normalize_url "example.com" := by
  decide

/-! ## Claim C5 — the maps API-call counter -/

/-- C5, counterexample.  The claim asserts the counter increments once per
*attempted* call regardless of success; in the code
`self.api_call_count += 1` sits after `response.raise_for_status()`, so a
transport/status failure leaves the counter unchanged (while the call still
returns the empty dict and does not throw). -/
theorem c5_counterexample :
    (search_maps 5 (CallOutcome.transportError : CallOutcome Unit)).1 ≠ 5 + 1
    ∧ (search_maps 5 (CallOutcome.transportError : CallOutcome Unit)).2 = none := by
  decide

/-- C5, amended: `search_maps` never throws (it is total); on
transport/backend failure it returns the empty result with the counter
unchanged; the counter increments exactly once per call whose HTTP round
trip succeeds — over any sequence of calls the counter grows by exactly the
number of HTTP-successful attempts. -/
theorem c5_counter_amended {R : Type} (n : Nat) (outcomes : List (CallOutcome R)) :
    (runMapsCalls n outcomes).1 = n + outcomes.countP CallOutcome.httpSuccess
    ∧ search_maps n (CallOutcome.transportError : CallOutcome R) = (n, none)
    ∧ ∀ o : CallOutcome R, o.httpSuccess = true → (search_maps n o).1 = n + 1 := by
  refine ⟨?_, rfl, ?_⟩
  · induction outcomes generalizing n with
    | nil => simp [runMapsCalls]
    | cons o rest ih =>
      cases o with
      | transportError =>
        simp [runMapsCalls, search_maps, ih, List.countP_cons, CallOutcome.httpSuccess]
      | badJson =>
        simp only [runMapsCalls, search_maps, ih, List.countP_cons,
          CallOutcome.httpSuccess, if_true]
        omega
      | ok d =>
        simp only [runMapsCalls, search_maps, ih, List.countP_cons,
          CallOutcome.httpSuccess, if_true]
        omega
  · intro o ho
    cases o with
    | transportError => simp [CallOutcome.httpSuccess] at ho
    | badJson => rfl
    | ok d => rfl

/-- C5, witness: the per-success increment conjunct applied at a concrete
successful call. -/
theorem c5_counter_amended_witness :
    (search_maps 3 (CallOutcome.ok () : CallOutcome Unit)).1 = 3 + 1 :=
  (c5_counter_amended 3 ([] : List (CallOutcome Unit))).2.2 (CallOutcome.ok ()) rfl

/-! ## Claims C1 and C2 — `flush_and_clear` -/

/-- C1, counterexample.  The claim asserts that flushing an empty buffer
returns `0` and that the sink always receives the pre-flush buffer.  The
Python function has no `return` with a value, so it always returns `None`
(not `0`); and with the sink unavailable it hands the sink nothing while
still clearing the buffer. -/
theorem c1_counterexample :
    (flush_and_clear (⟨[], [], 0, [], true, true⟩ : FlushState String)).2 ≠ some 0
    ∧ (flush_and_clear (⟨["r"], [], 0, [], true, false⟩ : FlushState String)).1.sink
        = [] := by
  decide

/-- C1, amended: after `flush_and_clear(buffer)` the buffer is always empty;
*when a cloud session exists and the sink is available* the sink has
received exactly the records that were in the buffer immediately before the
call (appended in order) and `total_saved_count` grows by their number;
calling it with an empty buffer is a no-op returning `None` (the function
always returns `None`, never a count). -/
theorem c1_flush_amended {α : Type} (s : FlushState α) :
    (flush_and_clear s).1.buffer = []
    ∧ (flush_and_clear s).2 = none
    ∧ (s.cloud_search_id = true → s.available = true →
        (flush_and_clear s).1.sink = s.sink ++ s.buffer
        ∧ (flush_and_clear s).1.total_saved_count
            = s.total_saved_count + s.buffer.length)
    ∧ (s.buffer = [] → flush_and_clear s = (s, none)) := by
  by_cases hb : s.buffer.isEmpty
  · have hbe : s.buffer = [] := by simpa [List.isEmpty_iff] using hb
    unfold flush_and_clear
    rw [if_pos hb]
    simp [hbe]
  · have hbe : s.buffer ≠ [] := by simpa [List.isEmpty_iff] using hb
    by_cases hca : s.cloud_search_id && s.available
    · unfold flush_and_clear
      rw [if_neg hb, if_pos hca]
      exact ⟨rfl, rfl, fun _ _ => ⟨rfl, rfl⟩, fun h => absurd h hbe⟩
    · unfold flush_and_clear
      rw [if_neg hb, if_neg hca]
      refine ⟨rfl, rfl, ?_, fun h => absurd h hbe⟩
      intro h1 h2
      exact absurd (by rw [h1, h2]; rfl : (s.cloud_search_id && s.available) = true) hca

/-- C1, witness: the available-sink conjunct applied at a concrete state. -/
theorem c1_flush_amended_witness :
    (flush_and_clear (⟨["a"], ["z"], 3, [], true, true⟩ : FlushState String)).1.sink
        = ["z"] ++ ["a"]
    ∧ (flush_and_clear
        (⟨["a"], ["z"], 3, [], true, true⟩ : FlushState String)).1.total_saved_count
        = 3 + (["a"] : List String).length :=
  (c1_flush_amended (⟨["a"], ["z"], 3, [], true, true⟩ : FlushState String)).2.2.1
    rfl rfl

/-- C2, counterexample.  The claim asserts that no already-collected record
is discarded when the sink is offline.  In the code `del results_list[:]`
runs "regardless of cloud availability", so with `cs.available = False` the
collected record `"r"` ends up neither in the sink nor in the buffer — it
is discarded. -/
theorem c2_counterexample :
    ¬("r" ∈ (flush_and_clear
          (⟨["r"], [], 0, [], true, false⟩ : FlushState String)).1.sink
      ∨ "r" ∈ (flush_and_clear
          (⟨["r"], [], 0, [], true, false⟩ : FlushState String)).1.buffer) := by
  decide

/-- C2, amended: when the storage sink is unavailable the run is not aborted
— `flush_and_clear` completes normally (returning `None`) and skips
persistence (sink, saved count and progress updates unchanged) — but it
still clears the buffer, so the records collected since the previous flush
are discarded from memory rather than retained; only subsequently collected
records remain available. -/
theorem c2_offline_amended {α : Type} (s : FlushState α)
    (hoff : s.available = false) :
    (flush_and_clear s).1.sink = s.sink
    ∧ (flush_and_clear s).1.total_saved_count = s.total_saved_count
    ∧ (flush_and_clear s).1.progress_updates = s.progress_updates
    ∧ (flush_and_clear s).1.buffer = []
    ∧ (flush_and_clear s).2 = none := by
  unfold flush_and_clear
  by_cases hb : s.buffer.isEmpty
  · have hbe : s.buffer = [] := by simpa [List.isEmpty_iff] using hb
    simp [hb, hbe]
  · simp [hb, hoff]

/-- C2, witness: the amended theorem at a concrete offline state. -/
theorem c2_offline_amended_witness :
    (flush_and_clear (⟨["r"], [], 7, [], true, false⟩ : FlushState String)).1.sink
        = ([] : List String)
    ∧ (flush_and_clear
        (⟨["r"], [], 7, [], true, false⟩ : FlushState String)).1.total_saved_count = 7
    ∧ (flush_and_clear
        (⟨["r"], [], 7, [], true, false⟩ : FlushState String)).1.progress_updates
        = ([] : List Nat)
    ∧ (flush_and_clear (⟨["r"], [], 7, [], true, false⟩ : FlushState String)).1.buffer
        = []
    ∧ (flush_and_clear (⟨["r"], [], 7, [], true, false⟩ : FlushState String)).2
        = none :=
  c2_offline_amended (⟨["r"], [], 7, [], true, false⟩ : FlushState String) rfl

/-! ## Claims C6 and C7 — pagination of `search_single_query` -/

/-- Does the loop stop after this page's outcome?  Only a truthy response
whose organic array is shorter than 10 ends the loop; failures and falsy
responses `continue`. -/
def stopsHere : SearchOutcome → Bool
  | .page wp => decide (wp.organic.length < 10)
  | _ => false

/-- The page numbers the loop requests, extracted from the recursion (the
branching of `searchPagesLoop` never reads the searcher state, so the
requested pages depend only on the backend, the start page and the
budget). -/
def requestedPages (backend : Nat → SearchOutcome) : Nat → Nat → List Nat
  | _, 0 => []
  | page, fuel + 1 =>
    if stopsHere (backend page) then [page]
    else page :: requestedPages backend (page + 1) fuel

theorem requested_eq_requestedPages (backend : Nat → SearchOutcome) (query : String)
    (city : Option String) :
    ∀ (fuel page : Nat) (st : SearcherState),
      (searchPagesLoop backend query city st page fuel).requested
        = requestedPages backend page fuel := by
  intro fuel
  induction fuel with
  | zero => intro page st; rfl
  | succ n ih =>
    intro page st
    simp only [searchPagesLoop, requestedPages]
    cases hb : backend page with
    | failed => simp [stopsHere, ih]
    | empty => simp [stopsHere, ih]
    | page wp =>
      by_cases hl : wp.organic.length < 10
      · simp [stopsHere, hl]
      · simp [stopsHere, hl, ih]

theorem length_requestedPages_le (backend : Nat → SearchOutcome) :
    ∀ (fuel page : Nat), (requestedPages backend page fuel).length ≤ fuel := by
  intro fuel
  induction fuel with
  | zero => intro page; simp [requestedPages]
  | succ n ih =>
    intro page
    simp only [requestedPages]
    by_cases hs : stopsHere (backend page)
    · simp [hs]
    · simpa [hs] using ih (page + 1)

theorem mem_requestedPages_bounds (backend : Nat → SearchOutcome) :
    ∀ (fuel page q : Nat), q ∈ requestedPages backend page fuel →
      page ≤ q ∧ q < page + fuel := by
  intro fuel
  induction fuel with
  | zero => intro page q hq; simp [requestedPages] at hq
  | succ n ih =>
    intro page q hq
    simp only [requestedPages] at hq
    by_cases hs : stopsHere (backend page)
    · rw [if_pos hs] at hq
      simp only [List.mem_singleton] at hq
      omega
    · rw [if_neg hs] at hq
      rcases List.mem_cons.mp hq with rfl | hq
      · omega
      · have := ih (page + 1) q hq
        omega

theorem head_mem_requestedPages (backend : Nat → SearchOutcome) (page n : Nat)
    (hn : 0 < n) : page ∈ requestedPages backend page n := by
  cases n with
  | zero => omega
  | succ m =>
    simp only [requestedPages]
    by_cases hs : stopsHere (backend page)
    · simp [hs]
    · simp [hs]

theorem requestedPages_early_exit (backend : Nat → SearchOutcome) :
    ∀ (fuel page p : Nat), stopsHere (backend p) = true →
      p ∈ requestedPages backend page fuel →
      ∀ q ∈ requestedPages backend page fuel, q ≤ p := by
  intro fuel
  induction fuel with
  | zero => intro page p _ hp; simp [requestedPages] at hp
  | succ n ih =>
    intro page p hstop hp q hq
    simp only [requestedPages] at hp hq
    by_cases hs : stopsHere (backend page)
    · rw [if_pos hs] at hp hq
      simp only [List.mem_singleton] at hp hq
      omega
    · rw [if_neg hs] at hp hq
      have hppage : p ≠ page := by
        intro h
        rw [h] at hstop
        rw [hstop] at hs
        exact hs rfl
      have hp' : p ∈ requestedPages backend (page + 1) n := by
        rcases List.mem_cons.mp hp with rfl | hp2
        · exact absurd rfl hppage
        · exact hp2
      rcases List.mem_cons.mp hq with heq | hq2
      · have := mem_requestedPages_bounds backend n (page + 1) p hp'
        omega
      · exact ih (page + 1) p hstop hp' q hq2

theorem requestedPages_continue (backend : Nat → SearchOutcome) :
    ∀ (fuel page p : Nat), stopsHere (backend p) = false →
      p ∈ requestedPages backend page fuel → p + 1 < page + fuel →
      (p + 1) ∈ requestedPages backend page fuel := by
  intro fuel
  induction fuel with
  | zero => intro page p _ hp; simp [requestedPages] at hp
  | succ n ih =>
    intro page p hcont hp hlt
    simp only [requestedPages] at hp ⊢
    by_cases hs : stopsHere (backend page)
    · rw [if_pos hs] at hp
      simp only [List.mem_singleton] at hp
      rw [hp] at hcont
      rw [hcont] at hs
      exact absurd hs (by simp)
    · rw [if_neg hs] at hp ⊢
      rcases List.mem_cons.mp hp with rfl | hp2
      · exact List.mem_cons_of_mem _
          (head_mem_requestedPages backend (p + 1) n (by omega))
      · exact List.mem_cons_of_mem _
          (ih (page + 1) p hcont hp2 (by omega))

/-- C7: for every call to `search_single_query` with target result count
`t`, the number of backend page requests issued is at most
`min((t + 10 - 1) / 10, 10)` — which for naturals is `min(⌈t/10⌉, 10)` —
and in particular requesting `t = 1000` issues at most 10 backend page
requests for that query. -/
theorem c7_pagination_ceiling (backend : Nat → SearchOutcome) (st : SearcherState)
    (query : String) (city : Option String) (t : Nat) :
    (search_single_query backend st query t city).requested.length
      ≤ min ((t + 10 - 1) / 10) 10
    ∧ (search_single_query backend st query 1000 city).requested.length ≤ 10 := by
  constructor
  · unfold search_single_query
    simp only []
    rw [requested_eq_requestedPages]
    exact length_requestedPages_le backend (totalPages t) 1
  · unfold search_single_query
    simp only []
    rw [requested_eq_requestedPages]
    exact le_trans (length_requestedPages_le backend (totalPages 1000) 1) (by decide)

/-- C6: within a single-query web search, (1) whenever a requested page
returns a truthy response with fewer than 10 organic items, no later page is
requested for that query; (2) a failed backend call does not end the query —
when budget remains, the next page is still requested; (3) a failed call is
treated as zero results for that page, non-fatally and without retry: the
loop iteration for a failed page leaves the searcher state and the result
count unchanged and simply records the attempt before moving on. -/
theorem c6_early_exit_and_failure (backend : Nat → SearchOutcome)
    (st : SearcherState) (query : String) (city : Option String) (t : Nat) :
    (∀ p ∈ (search_single_query backend st query t city).requested,
      ∀ wp : WebPage, backend p = SearchOutcome.page wp → wp.organic.length < 10 →
        ∀ q ∈ (search_single_query backend st query t city).requested, q ≤ p)
    ∧ (∀ p ∈ (search_single_query backend st query t city).requested,
        backend p = SearchOutcome.failed → p + 1 ≤ totalPages t →
        (p + 1) ∈ (search_single_query backend st query t city).requested)
    ∧ (∀ (st' : SearcherState) (page fuel : Nat),
        backend page = SearchOutcome.failed →
        searchPagesLoop backend query city st' page (fuel + 1)
          = ⟨(searchPagesLoop backend query city st' (page + 1) fuel).state,
             (searchPagesLoop backend query city st' (page + 1) fuel).page_results,
             page :: (searchPagesLoop backend query city st' (page + 1) fuel).requested⟩) := by
  refine ⟨?_, ?_, ?_⟩
  · intro p hp wp hbp hshort q hq
    unfold search_single_query at hp hq
    simp only [] at hp hq
    rw [requested_eq_requestedPages] at hp hq
    have hstop : stopsHere (backend p) = true := by
      rw [hbp]
      simp [stopsHere, hshort]
    exact requestedPages_early_exit backend (totalPages t) 1 p hstop hp q hq
  · intro p hp hbp hle
    unfold search_single_query at hp ⊢
    simp only [] at hp ⊢
    rw [requested_eq_requestedPages] at hp ⊢
    have hcont : stopsHere (backend p) = false := by
      rw [hbp]
      rfl
    exact requestedPages_continue backend (totalPages t) 1 p hcont hp (by omega)
  · intro st' page fuel hfail
    simp [searchPagesLoop, hfail, applySearchCall]

/-- A concrete backend for the C6 witness: page 1 fails, page 2 answers
with two organic items (fewer than 10), later pages fail. -/
def c6WitnessBackend : Nat → SearchOutcome := fun p =>
  if p == 2 then
    SearchOutcome.page
      ⟨[⟨"https://w1.example", "t1", "s1", "1"⟩,
        ⟨"https://w2.example", "t2", "s2", "2"⟩], [], [], []⟩
  else SearchOutcome.failed

/-- C6, witness: the failure-continues conjunct applied at page 1 of the
concrete backend (page 1 fails, and page 2 is indeed still requested). -/
theorem c6_early_exit_and_failure_witness :
    (2 : Nat) ∈ (search_single_query c6WitnessBackend SearcherState.init
        "q" 100 none).requested :=
  (c6_early_exit_and_failure c6WitnessBackend SearcherState.init "q" none 100).2.1
    1 (by decide) (by decide) (by decide)

/-! ## Claim C10 — empty-key rows in `merge_csv_files` -/

theorem foldl_mergeRow_length_le (k : String) :
    ∀ (rows : List Row) (acc : List Row × Deduplicator),
      (rows.foldl (mergeRow k) acc).1.length ≤ acc.1.length + rows.length := by
  intro rows
  induction rows with
  | nil => intro acc; simp
  | cons r rest ih =>
    intro acc
    have hstep : (mergeRow k acc r).1.length ≤ acc.1.length + 1 := by
      unfold mergeRow
      split_ifs <;> simp <;> split_ifs <;> simp
    calc ((r :: rest).foldl (mergeRow k) acc).1.length
        = (rest.foldl (mergeRow k) (mergeRow k acc r)).1.length := by
          rw [List.foldl_cons]
      _ ≤ (mergeRow k acc r).1.length + rest.length := ih (mergeRow k acc r)
      _ ≤ acc.1.length + 1 + rest.length := by omega
      _ = acc.1.length + (r :: rest).length := by simp; omega

/-- C10: in `merge_csv_files` with dedup key `"url"` or `"domain"`, a row
whose dedup-key field is empty (or missing, or whitespace-only) is excluded
from the merged output *without* the deduplicator being consulted or
mutated — the row loop leaves the accumulator unchanged — and, because
`duplicates_removed` is computed as `total_rows - len(all_rows)`, such a row
is nevertheless counted as a removed duplicate even though no equal key was
previously seen: appending a file holding only that row adds one to
`total_rows`, leaves the merged rows unchanged, and adds one to
`duplicates_removed`. -/
theorem c10_empty_key_rows (key : String) (hkey : key = "url" ∨ key = "domain")
    (row : Row) (hempty : pyStrip (row.get key) = "") :
    (∀ acc : List Row × Deduplicator, mergeRow key acc row = acc)
    ∧ ∀ files : List (Option (List Row)),
        (mergeCounts (files ++ [some [row]]) key).1 = (mergeCounts files key).1 + 1
        ∧ (mergeCounts (files ++ [some [row]]) key).2.1 = (mergeCounts files key).2.1
        ∧ (mergeCounts (files ++ [some [row]]) key).2.2
            = (mergeCounts files key).2.2 + 1 := by
  have hstep : ∀ acc : List Row × Deduplicator, mergeRow key acc row = acc := by
    intro acc
    rcases hkey with rfl | rfl
    · simp [mergeRow, hempty]
    · simp [mergeRow, hempty]
  refine ⟨hstep, ?_⟩
  intro files
  have hrows : ((files ++ [some [row]]).filterMap id).flatten
      = (files.filterMap id).flatten ++ [row] := by
    rw [List.filterMap_append]
    simp
  have hfold : (((files.filterMap id).flatten ++ [row]).foldl (mergeRow key)
        ([], Deduplicator.fresh))
      = ((files.filterMap id).flatten.foldl (mergeRow key) ([], Deduplicator.fresh)) := by
    rw [List.foldl_append, List.foldl_cons, List.foldl_nil, hstep]
  have hle : ((files.filterMap id).flatten.foldl (mergeRow key)
        ([], Deduplicator.fresh)).1.length ≤ (files.filterMap id).flatten.length := by
    simpa using foldl_mergeRow_length_le key (files.filterMap id).flatten
      ([], Deduplicator.fresh)
  refine ⟨?_, ?_, ?_⟩
  · simp [mergeCounts, merge_csv_files, hrows]
  · simp [mergeCounts, merge_csv_files, hrows, hfold]
  · simp only [mergeCounts, merge_csv_files, hrows, hfold, List.length_append,
      List.length_singleton]
    omega

/-- C10, witness: appending a one-row file whose row lacks the `url` field
adds one removed duplicate. -/
theorem c10_empty_key_rows_witness :
    (mergeCounts (([] : List (Option (List Row))) ++ [some [[("title", "x")]]])
        "url").2.2
      = (mergeCounts ([] : List (Option (List Row))) "url").2.2 + 1 :=
  ((c10_empty_key_rows "url" (Or.inl rfl) [("title", "x")] (by decide)).2 []).2.2

/-! ## Claim C3 — dedup soundness of `add_url` -/

/-- The number of distinct identities among a sequence of submissions: an
identity is the normalized key `normalize_url u`, and `D` counts the
distinct normalized keys. -/
def distinctIdentityCount (urls : List String) : Nat :=
  ((urls.map normalize_url).dedup).length

theorem runAddUrls_results_length (urls : List String) :
    ∀ d : Deduplicator, (runAddUrls d urls).1.length = urls.length := by
  induction urls with
  | nil => intro d; rfl
  | cons u rest ih =>
    intro d
    simp only [runAddUrls, List.length_cons, ih]

theorem count_true_add_count_false (l : List Bool) :
    l.count true + l.count false = l.length := by
  induction l with
  | nil => rfl
  | cons b rest ih =>
    cases b <;> simp [List.count_cons] <;> omega

theorem filter_not_contains_cons_length {L S : List String} {n : String}
    (hL : L.Nodup) (hn : n ∈ L) (hnS : n ∉ S) :
    (L.filter (fun x => !(S.contains x))).length
      = (L.filter (fun x => !((n :: S).contains x))).length + 1 := by
  induction L with
  | nil => simp at hn
  | cons a L2 ih =>
    have hnodup := List.nodup_cons.mp hL
    by_cases heq : a = n
    · subst heq
      have hnL2 : a ∉ L2 := hnodup.1
      have h1 : (fun x => !(S.contains x)) a = true := by simpa using hnS
      have h2 : ¬((fun x => !((a :: S).contains x)) a = true) := by simp
      rw [List.filter_cons_of_pos (p := fun x => !(S.contains x)) h1,
        List.filter_cons_of_neg (p := fun x => !((a :: S).contains x)) h2]
      have hcong : L2.filter (fun x => !((a :: S).contains x))
          = L2.filter (fun x => !(S.contains x)) := by
        apply List.filter_congr
        intro x hx
        have hxa : (x == a) = false := by
          have hne : x ≠ a := fun h => hnL2 (h ▸ hx)
          simpa using hne
        show (!((a :: S).contains x)) = (!(S.contains x))
        rw [List.contains_cons, hxa, Bool.false_or]
      rw [hcong, List.length_cons]
    · have hmem : n ∈ L2 := by
        rcases List.mem_cons.mp hn with h | h
        · exact absurd h.symm heq
        · exact h
      have hak : (a == n) = false := by simpa using heq
      have hsame : (fun x => !((n :: S).contains x)) a
          = (fun x => !(S.contains x)) a := by
        show (!((n :: S).contains a)) = (!(S.contains a))
        rw [List.contains_cons, hak, Bool.false_or]
      by_cases h : (fun x => !(S.contains x)) a = true
      · rw [List.filter_cons_of_pos (p := fun x => !(S.contains x)) h,
          List.filter_cons_of_pos (p := fun x => !((n :: S).contains x))
            (hsame.trans h),
          List.length_cons, List.length_cons, ih hnodup.2 hmem]
      · rw [List.filter_cons_of_neg (p := fun x => !(S.contains x)) h,
          List.filter_cons_of_neg (p := fun x => !((n :: S).contains x))
            (fun hc => h (hsame ▸ hc))]
        exact ih hnodup.2 hmem

theorem runAddUrls_count_true (urls : List String) :
    ∀ d : Deduplicator,
      (runAddUrls d urls).1.count true
        = ((urls.map normalize_url).dedup.filter
            (fun n => !(d.seen_urls.contains n))).length := by
  induction urls with
  | nil => intro d; simp [runAddUrls]
  | cons u rest ih =>
    intro d
    by_cases hmem : normalize_url u ∈ d.seen_urls
    · have hadd : d.add_url u none = (false, d) := by
        unfold Deduplicator.add_url
        rw [if_pos hmem]
      simp only [runAddUrls, hadd, List.map_cons]
      rw [List.count_cons_of_ne (by decide : (true : Bool) ≠ false)]
      rw [ih d]
      by_cases hdup : normalize_url u ∈ rest.map normalize_url
      · rw [List.dedup_cons_of_mem hdup]
      · rw [List.dedup_cons_of_not_mem hdup]
        have hdrop : ¬((fun n => !(d.seen_urls.contains n)) (normalize_url u)
            = true) := by
          simpa using hmem
        rw [List.filter_cons_of_neg (p := fun n => !(d.seen_urls.contains n)) hdrop]
    · have hadd : d.add_url u none
          = (true, { d with seen_urls := normalize_url u :: d.seen_urls }) := by
        unfold Deduplicator.add_url
        rw [if_neg hmem]
      simp only [runAddUrls, hadd, List.map_cons]
      rw [List.count_cons_self]
      rw [ih { d with seen_urls := normalize_url u :: d.seen_urls }]
      have hproj : ({ d with seen_urls := normalize_url u :: d.seen_urls }
          : Deduplicator).seen_urls = normalize_url u :: d.seen_urls := rfl
      rw [hproj]
      by_cases hdup : normalize_url u ∈ rest.map normalize_url
      · rw [List.dedup_cons_of_mem hdup]
        have := filter_not_contains_cons_length
          (List.nodup_dedup (rest.map normalize_url))
          (List.mem_dedup.mpr hdup) hmem
        omega
      · rw [List.dedup_cons_of_not_mem hdup]
        have hkeep : (fun n => !(d.seen_urls.contains n)) (normalize_url u)
            = true := by
          simpa using hmem
        rw [List.filter_cons_of_pos (p := fun n => !(d.seen_urls.contains n)) hkeep,
          List.length_cons]
        have hcong : (rest.map normalize_url).dedup.filter
              (fun n => !((normalize_url u :: d.seen_urls).contains n))
            = (rest.map normalize_url).dedup.filter
              (fun n => !(d.seen_urls.contains n)) := by
          apply List.filter_congr
          intro x hx
          have hxne : x ≠ normalize_url u :=
            fun h => hdup (h ▸ List.mem_dedup.mp hx)
          have hxu : (x == normalize_url u) = false := by simpa using hxne
          show (!((normalize_url u :: d.seen_urls).contains x))
              = (!(d.seen_urls.contains x))
          rw [List.contains_cons, hxu, Bool.false_or]
        rw [hcong]

theorem runAddUrls_seen_nodup (urls : List String) :
    ∀ d : Deduplicator, d.seen_urls.Nodup →
      (runAddUrls d urls).2.seen_urls.Nodup := by
  induction urls with
  | nil => intro d hd; exact hd
  | cons u rest ih =>
    intro d hd
    by_cases hmem : normalize_url u ∈ d.seen_urls
    · have hadd : d.add_url u none = (false, d) := by
        unfold Deduplicator.add_url
        rw [if_pos hmem]
      simp only [runAddUrls, hadd]
      exact ih d hd
    · have hadd : d.add_url u none
          = (true, { d with seen_urls := normalize_url u :: d.seen_urls }) := by
        unfold Deduplicator.add_url
        rw [if_neg hmem]
      simp only [runAddUrls, hadd]
      exact ih _ (List.nodup_cons.mpr ⟨hmem, hd⟩)

/-- C3: for every finite sequence of submissions to `add_url` on a fresh
`Deduplicator`, with `D` the number of distinct identities (normalized
keys) among them, `add_url` answers `true` exactly `D` times and `false`
exactly `N − D` times; the count of `true`s is invariant under permuting
the sequence; and the recorded identity set holds no duplicates — no two
accepted records share a normalized identity key. -/
theorem c3_dedup_soundness (urls : List String) :
    (runAddUrls Deduplicator.fresh urls).1.count true = distinctIdentityCount urls
    ∧ (runAddUrls Deduplicator.fresh urls).1.count false
        = urls.length - distinctIdentityCount urls
    ∧ (∀ urls' : List String, urls.Perm urls' →
        (runAddUrls Deduplicator.fresh urls').1.count true
          = distinctIdentityCount urls)
    ∧ (runAddUrls Deduplicator.fresh urls).2.seen_urls.Nodup := by
  have hmain : ∀ l : List String,
      (runAddUrls Deduplicator.fresh l).1.count true = distinctIdentityCount l := by
    intro l
    rw [runAddUrls_count_true l Deduplicator.fresh]
    unfold distinctIdentityCount
    congr 1
    apply List.filter_eq_self.mpr
    intro x _
    rfl
  refine ⟨hmain urls, ?_, ?_, ?_⟩
  · have hsum := count_true_add_count_false (runAddUrls Deduplicator.fresh urls).1
    have hlen := runAddUrls_results_length urls Deduplicator.fresh
    have := hmain urls
    omega
  · intro urls' hperm
    rw [hmain urls']
    unfold distinctIdentityCount
    exact (List.Perm.length_eq (List.Perm.dedup (hperm.map normalize_url))).symm
  · exact runAddUrls_seen_nodup urls Deduplicator.fresh List.nodup_nil

/-- C3, witness: the permutation-invariance conjunct at a concrete
two-element sequence whose members are one identity. -/
theorem c3_dedup_soundness_witness :
    (runAddUrls Deduplicator.fresh ["https://a.com/x/", "https://a.com/x"]).1.count true
      = distinctIdentityCount ["https://a.com/x", "https://a.com/x/"] :=
  (c3_dedup_soundness ["https://a.com/x", "https://a.com/x/"]).2.2.1
    ["https://a.com/x/", "https://a.com/x"] (by decide)

/-! ## Claim C8, amended part — character classification kit -/

theorem uint32_le_iff (a b : UInt32) : a ≤ b ↔ a.toNat ≤ b.toNat := by
  rw [UInt32.le_def, BitVec.le_def]
  exact Iff.rfl

theorem isLower_iff (c : Char) : c.isLower = true ↔ 97 ≤ c.toNat ∧ c.toNat ≤ 122 := by
  unfold Char.isLower
  rw [Bool.and_eq_true, decide_eq_true_eq, decide_eq_true_eq]
  constructor
  · intro ⟨h1, h2⟩
    exact ⟨by simpa using (uint32_le_iff _ _).mp h1,
           by simpa using (uint32_le_iff _ _).mp h2⟩
  · intro ⟨h1, h2⟩
    exact ⟨(uint32_le_iff _ _).mpr (by simpa using h1),
           (uint32_le_iff _ _).mpr (by simpa using h2)⟩

theorem isUpper_iff (c : Char) : c.isUpper = true ↔ 65 ≤ c.toNat ∧ c.toNat ≤ 90 := by
  unfold Char.isUpper
  rw [Bool.and_eq_true, decide_eq_true_eq, decide_eq_true_eq]
  constructor
  · intro ⟨h1, h2⟩
    exact ⟨by simpa using (uint32_le_iff _ _).mp h1,
           by simpa using (uint32_le_iff _ _).mp h2⟩
  · intro ⟨h1, h2⟩
    exact ⟨(uint32_le_iff _ _).mpr (by simpa using h1),
           (uint32_le_iff _ _).mpr (by simpa using h2)⟩

theorem isAlpha_iff (c : Char) :
    c.isAlpha = true ↔ (65 ≤ c.toNat ∧ c.toNat ≤ 90) ∨ (97 ≤ c.toNat ∧ c.toNat ≤ 122) := by
  unfold Char.isAlpha
  rw [Bool.or_eq_true, isUpper_iff, isLower_iff]

theorem isAlpha_toNat_bounds {c : Char} (h : c.isAlpha = true) :
    65 ≤ c.toNat ∧ c.toNat ≤ 122 := by
  rcases (isAlpha_iff c).mp h with h2 | h2 <;> omega

theorem isAlpha_toLower {c : Char} (h : c.isAlpha = true) :
    c.toLower.isAlpha = true := by
  by_cases hup : 65 ≤ c.toNat ∧ c.toNat ≤ 90
  · apply (isAlpha_iff _).mpr
    right
    rw [toNat_toLower_of_upper hup]
    omega
  · rwa [toLower_of_not_upper hup]

theorem isSchemeChar_toLower {c : Char} (h : isSchemeChar c = true) :
    isSchemeChar c.toLower = true := by
  by_cases hup : 65 ≤ c.toNat ∧ c.toNat ≤ 90
  · have halpha : c.toLower.isAlpha = true := by
      apply (isAlpha_iff _).mpr
      right
      rw [toNat_toLower_of_upper hup]
      omega
    unfold isSchemeChar
    simp [halpha]
  · rwa [toLower_of_not_upper hup]

theorem isSchemeChar_ne {c x : Char} (h : isSchemeChar c = true)
    (hx : isSchemeChar x = false) : c ≠ x := by
  intro heq
  rw [heq, hx] at h
  exact Bool.false_ne_true h

theorem isNetlocEnd_iff (c : Char) :
    isNetlocEnd c = true ↔ c = '/' ∨ c = '?' ∨ c = '#' := by
  unfold isNetlocEnd
  simp only [Bool.or_eq_true, beq_iff_eq]
  tauto

theorem isNetlocEnd_toLower_eq_false {y : Char} (h : isNetlocEnd y = false) :
    isNetlocEnd y.toLower = false := by
  by_cases he : isNetlocEnd y.toLower = true
  · exfalso
    rcases (isNetlocEnd_iff _).mp he with h2 | h2 | h2
    · have : y = '/' := eq_of_toLower_eq_of_not_lower (by decide) h2
      rw [this] at h
      simp [isNetlocEnd] at h
    · have : y = '?' := eq_of_toLower_eq_of_not_lower (by decide) h2
      rw [this] at h
      simp [isNetlocEnd] at h
    · have : y = '#' := eq_of_toLower_eq_of_not_lower (by decide) h2
      rw [this] at h
      simp [isNetlocEnd] at h
  · simpa using he

/-! ## Claim C8, amended part — parser computation lemmas -/

theorem mem_listLower {c : Char} {l : List Char} (h : c ∈ listLower l) :
    ∃ y ∈ l, y.toLower = c := by
  simpa [listLower] using h

theorem listLower_eq_self_of_image (l : List Char) :
    listLower (listLower l) = listLower l := listLower_idem l

/-- `cleanURL` leaves a list alone when its head is above the C0/space range
and no character is a tab, CR or LF. -/
theorem cleanURL_eq_self {c : Char} {rest : List Char} (hc : 32 < c.toNat)
    (hall : ∀ x ∈ c :: rest, (x == '\t' || x == '\x0d' || x == '\n') = false) :
    cleanURL (c :: rest) = c :: rest := by
  unfold cleanURL
  rw [dropWhile_eq_self_of_head rest (by simpa using hc)]
  apply List.filter_eq_self.mpr
  intro a ha
  rw [hall a ha]
  rfl

/-- Scheme re-detection: on `s ++ ':' :: tail` with `s` a nonempty run of
scheme characters led by a letter, `splitScheme` recovers `(listLower s,
tail)`. -/
theorem splitScheme_recover {c0 : Char} {s0 tail : List Char}
    (hall : (c0 :: s0).all isSchemeChar = true) (halpha : c0.isAlpha = true) :
    splitScheme ((c0 :: s0) ++ ':' :: tail) = (listLower (c0 :: s0), tail) := by
  have hnocolon : ∀ x ∈ c0 :: s0, (x != ':') = true := by
    intro x hx
    have hsx : isSchemeChar x = true := by
      have := List.all_eq_true.mp hall x hx
      simpa using this
    simpa using isSchemeChar_ne hsx (by decide)
  have hpre : ((c0 :: s0) ++ ':' :: tail).takeWhile (fun x => x != ':')
      = c0 :: s0 := by
    rw [takeWhile_append_all (':' :: tail) hnocolon]
    simp [List.takeWhile_cons]
  unfold splitScheme
  simp only [hpre]
  have hcond : (decide ((c0 :: s0).length < ((c0 :: s0) ++ ':' :: tail).length)
      && c0.isAlpha && (c0 :: s0).all isSchemeChar) = true := by
    rw [Bool.and_eq_true, Bool.and_eq_true, decide_eq_true_eq]
    refine ⟨⟨?_, halpha⟩, hall⟩
    simp
  rw [if_pos hcond]
  have hdrop : ((c0 :: s0) ++ ':' :: tail).drop ((c0 :: s0).length + 1) = tail := by
    have h1 : (c0 :: s0) ++ ':' :: tail = ((c0 :: s0) ++ [':']) ++ tail := by
      simp
    have h2 : (c0 :: s0).length + 1 = ((c0 :: s0) ++ [':']).length := by
      simp
    rw [h1, h2, List.drop_left]
  rw [hdrop]

theorem splitNetloc_of_slashes (v : List Char) :
    splitNetloc ('/' :: '/' :: v)
      = (v.takeWhile (fun c => !isNetlocEnd c), v.dropWhile (fun c => !isNetlocEnd c)) := by
  show (if ('/' : Char) = '/' ∧ ('/' : Char) = '/' then
      (v.takeWhile (fun c => !isNetlocEnd c), v.dropWhile (fun c => !isNetlocEnd c))
    else ([], '/' :: '/' :: v)) = _
  rw [if_pos ⟨rfl, rfl⟩]

theorem splitTail_of_not_mem {sep : Char} {l : List Char} (h : sep ∉ l) :
    splitTail sep l = (l, []) := by
  unfold splitTail
  rw [if_neg]
  intro hc
  exact h (by simpa using hc)

theorem dropParams_of_not_mem {p : List Char} (h : ';' ∉ p) : dropParams p = p := by
  unfold dropParams
  rw [if_neg]
  intro hc
  exact h (by simpa using hc)

theorem dropWhile_eq_nil_of_all {p : Char → Bool} {l : List Char}
    (h : ∀ c ∈ l, p c = true) : l.dropWhile p = [] := by
  induction l with
  | nil => rfl
  | cons x xs ih =>
    rw [List.dropWhile_cons, if_pos (h x (by simp))]
    exact ih (fun c hc => h c (by simp [hc]))

/-! ## Claim C8, amended part — invariants of a successful parse -/

theorem mem_cleanURL_not_unsafe {l : List Char} {c : Char} (h : c ∈ cleanURL l) :
    (c == '\t' || c == '\x0d' || c == '\n') = false := by
  unfold cleanURL at h
  have := List.of_mem_filter h
  simpa using this

theorem splitScheme_fst_spec (l : List Char) :
    (splitScheme l).1 = [] ∨
      ((splitScheme l).1.all isSchemeChar = true
        ∧ (∃ c t, (splitScheme l).1 = c :: t ∧ c.isAlpha = true)
        ∧ listLower (splitScheme l).1 = (splitScheme l).1) := by
  unfold splitScheme
  rcases hpre : l.takeWhile (fun c => c != ':') with _ | ⟨c, pre2⟩
  · simp only [hpre]
    left
    trivial
  · simp only [hpre]
    by_cases hcond : (decide ((c :: pre2).length < l.length) && c.isAlpha
        && (c :: pre2).all isSchemeChar) = true
    · rw [if_pos hcond]
      rw [Bool.and_eq_true, Bool.and_eq_true] at hcond
      obtain ⟨⟨_, halpha⟩, hall⟩ := hcond
      right
      refine ⟨?_, ?_, listLower_idem _⟩
      · rw [List.all_eq_true] at hall ⊢
        intro x hx
        obtain ⟨y, hy, hyx⟩ := mem_listLower hx
        rw [← hyx]
        exact isSchemeChar_toLower (hall y hy)
      · exact ⟨c.toLower, listLower pre2, rfl, isAlpha_toLower halpha⟩
    · rw [if_neg hcond]
      left
      trivial

theorem splitScheme_snd_sub {l : List Char} :
    ∀ c ∈ (splitScheme l).2, c ∈ l := by
  unfold splitScheme
  rcases hpre : l.takeWhile (fun c => c != ':') with _ | ⟨c, pre2⟩
  · simp only [hpre]
    intro x hx
    exact hx
  · simp only [hpre]
    by_cases hcond : (decide ((c :: pre2).length < l.length) && c.isAlpha
        && (c :: pre2).all isSchemeChar) = true
    · rw [if_pos hcond]
      intro x hx
      exact List.mem_of_mem_drop hx
    · rw [if_neg hcond]
      intro x hx
      exact hx

theorem splitNetloc_fst_netlocEnd {l : List Char} :
    ∀ c ∈ (splitNetloc l).1, isNetlocEnd c = false := by
  rcases l with _ | ⟨c1, _ | ⟨c2, rest⟩⟩
  · intro x hx
    simp [splitNetloc] at hx
  · intro x hx
    simp [splitNetloc] at hx
  · intro x hx
    have hx2 : x ∈ (if c1 = '/' ∧ c2 = '/' then
        (rest.takeWhile (fun c => !isNetlocEnd c),
         rest.dropWhile (fun c => !isNetlocEnd c))
      else ([], c1 :: c2 :: rest)).1 := hx
    by_cases hss : c1 = '/' ∧ c2 = '/'
    · rw [if_pos hss] at hx2
      have := List.mem_takeWhile_imp hx2
      simpa using this
    · rw [if_neg hss] at hx2
      simp at hx2

theorem splitNetloc_fst_sub {l : List Char} :
    ∀ c ∈ (splitNetloc l).1, c ∈ l := by
  rcases l with _ | ⟨c1, _ | ⟨c2, rest⟩⟩
  · intro x hx
    simp [splitNetloc] at hx
  · intro x hx
    simp [splitNetloc] at hx
  · intro x hx
    have hx2 : x ∈ (if c1 = '/' ∧ c2 = '/' then
        (rest.takeWhile (fun c => !isNetlocEnd c),
         rest.dropWhile (fun c => !isNetlocEnd c))
      else ([], c1 :: c2 :: rest)).1 := hx
    by_cases hss : c1 = '/' ∧ c2 = '/'
    · rw [if_pos hss] at hx2
      have := (List.takeWhile_sublist (fun c => !isNetlocEnd c)).mem hx2
      exact List.mem_cons_of_mem _ (List.mem_cons_of_mem _ this)
    · rw [if_neg hss] at hx2
      simp at hx2

theorem splitNetloc_snd_sub {l : List Char} :
    ∀ c ∈ (splitNetloc l).2, c ∈ l := by
  rcases l with _ | ⟨c1, _ | ⟨c2, rest⟩⟩
  · intro x hx
    simp [splitNetloc] at hx
  · intro x hx
    simpa [splitNetloc] using hx
  · intro x hx
    have hx2 : x ∈ (if c1 = '/' ∧ c2 = '/' then
        (rest.takeWhile (fun c => !isNetlocEnd c),
         rest.dropWhile (fun c => !isNetlocEnd c))
      else ([], c1 :: c2 :: rest)).2 := hx
    by_cases hss : c1 = '/' ∧ c2 = '/'
    · rw [if_pos hss] at hx2
      have := (List.dropWhile_sublist (fun c => !isNetlocEnd c)).mem hx2
      exact List.mem_cons_of_mem _ (List.mem_cons_of_mem _ this)
    · rw [if_neg hss] at hx2
      exact hx2

theorem splitTail_fst_sub {sep : Char} {l : List Char} :
    ∀ c ∈ (splitTail sep l).1, c ∈ l := by
  unfold splitTail
  by_cases hc : l.contains sep
  · rw [if_pos hc]
    intro x hx
    exact (List.takeWhile_sublist _).mem hx
  · rw [if_neg hc]
    intro x hx
    exact hx

theorem splitTail_fst_ne {sep : Char} {l : List Char} :
    sep ∉ (splitTail sep l).1 := by
  unfold splitTail
  by_cases hc : l.contains sep
  · rw [if_pos hc]
    intro hx
    have := List.mem_takeWhile_imp hx
    simp at this
  · rw [if_neg hc]
    intro hx
    exact hc (by simpa using hx)

theorem mem_lastSegment {p : List Char} {x : Char} (h : x ∈ lastSegment p) :
    x ∈ p := by
  unfold lastSegment at h
  rw [List.mem_reverse] at h
  have := (List.takeWhile_sublist (fun c => c != '/')).mem h
  simpa using this

theorem mem_dropParams {p : List Char} {x : Char} (h : x ∈ dropParams p) :
    x ∈ p := by
  unfold dropParams at h
  split_ifs at h
  · rcases List.mem_append.mp h with h2 | h2
    · exact List.mem_of_mem_take h2
    · exact mem_lastSegment ((List.takeWhile_sublist (fun c => c != ';')).mem h2)
  · exact h
  · exact (List.takeWhile_sublist _).mem h
  · exact h

/-- Everything a successful `urlsplit` guarantees about its output. -/
theorem urlsplit_inv {l : List Char} {r : UrlParts} (h : urlsplitList l = some r) :
    (r.scheme = [] ∨
      (r.scheme.all isSchemeChar = true
        ∧ (∃ c t, r.scheme = c :: t ∧ c.isAlpha = true)
        ∧ listLower r.scheme = r.scheme))
    ∧ (∀ c ∈ r.netloc, isNetlocEnd c = false)
    ∧ ('#' ∉ r.path) ∧ ('?' ∉ r.path)
    ∧ (∀ c ∈ r.netloc, c ∈ cleanURL l)
    ∧ (∀ c ∈ r.path, c ∈ cleanURL l) := by
  unfold urlsplitList at h
  by_cases hbr : ((splitNetloc (splitScheme (cleanURL l)).2).1.contains '['
      != (splitNetloc (splitScheme (cleanURL l)).2).1.contains ']') = true
  · rw [if_pos hbr] at h
    exact absurd h (by simp)
  · rw [if_neg hbr] at h
    have hr : r = ⟨(splitScheme (cleanURL l)).1,
        (splitNetloc (splitScheme (cleanURL l)).2).1,
        (splitTail '?' (splitTail '#' (splitNetloc (splitScheme (cleanURL l)).2).2).1).1⟩ := by
      have := Option.some.inj h
      rw [← this]
    subst hr
    refine ⟨splitScheme_fst_spec (cleanURL l), splitNetloc_fst_netlocEnd, ?_, ?_, ?_, ?_⟩
    · intro hmem
      exact splitTail_fst_ne (splitTail_fst_sub _ hmem)
    · exact splitTail_fst_ne
    · intro c hc
      exact splitScheme_snd_sub _ (splitNetloc_fst_sub _ hc)
    · intro c hc
      exact splitScheme_snd_sub _
        (splitNetloc_snd_sub _ (splitTail_fst_sub _ (splitTail_fst_sub _ hc)))

/-- The same invariants for `urlparse` (whose path moreover went through
`dropParams`). -/
theorem urlparse_inv {l : List Char} {r : UrlParts} (h : urlparseList l = some r) :
    (r.scheme = [] ∨
      (r.scheme.all isSchemeChar = true
        ∧ (∃ c t, r.scheme = c :: t ∧ c.isAlpha = true)
        ∧ listLower r.scheme = r.scheme))
    ∧ (∀ c ∈ r.netloc, isNetlocEnd c = false)
    ∧ ('#' ∉ r.path) ∧ ('?' ∉ r.path)
    ∧ (∀ c ∈ r.netloc, c ∈ cleanURL l)
    ∧ (∀ c ∈ r.path, c ∈ cleanURL l) := by
  unfold urlparseList at h
  cases husl : urlsplitList l with
  | none =>
    rw [husl] at h
    exact absurd h (by simp)
  | some r0 =>
    rw [husl] at h
    have hr : r = { r0 with path := dropParams r0.path } := by
      have := Option.some.inj (by simpa using h)
      rw [← this]
    obtain ⟨h1, h2, h3, h4, h5, h6⟩ := urlsplit_inv husl
    subst hr
    refine ⟨h1, h2, ?_, ?_, h5, ?_⟩
    · intro hmem
      exact h3 (mem_dropParams hmem)
    · intro hmem
      exact h4 (mem_dropParams hmem)
    · intro c hc
      exact h6 c (mem_dropParams hc)

/-! ## Claim C8, amended part — reconstruction lemmas -/

/-- The list-level core of `normalize_url`. -/
def normalizeList (l : List Char) : List Char :=
  match urlparseList l with
  | some r =>
    listLower (rstripSlashes (r.scheme ++ ':' :: '/' :: '/' :: (r.netloc ++ r.path)))
  | none => listLower l

theorem normalize_url_eq_normalizeList (s : String) :
    normalize_url s = ⟨normalizeList s.data⟩ := by
  unfold normalize_url normalizeList
  cases urlparseList s.data <;> rfl

theorem recon_rstrip (s w : List Char) (hs_noslash : ∀ c ∈ s, ¬c = '/') :
    rstripSlashes (s ++ ':' :: '/' :: '/' :: w)
      = if rstripSlashes w = [] then s ++ [':']
        else s ++ ':' :: '/' :: '/' :: rstripSlashes w := by
  have h1 : s ++ ':' :: '/' :: '/' :: w = (s ++ [':']) ++ (['/', '/'] ++ w) := by
    simp
  by_cases hw : rstripSlashes w = []
  · rw [if_pos hw, h1, rstrip_append]
    have h2 : rstripSlashes (['/', '/'] ++ w) = [] := by
      rw [rstrip_append, if_pos hw]
      rfl
    rw [if_pos h2]
    have h3 : ∀ c ∈ s ++ [':'], ¬c = '/' := by
      intro c hc
      rcases List.mem_append.mp hc with h | h
      · exact hs_noslash c h
      · intro hcc
        rw [hcc] at h
        simp at h
    exact rstrip_of_no_slash h3
  · rw [if_neg hw, h1, rstrip_append]
    have h2 : rstripSlashes (['/', '/'] ++ w) = ['/', '/'] ++ rstripSlashes w := by
      rw [rstrip_append, if_neg hw]
    rw [h2, if_neg (by simp)]
    simp

/-- Lower-casing the reconstruction: the scheme is already lower,
`:` and `/` are fixed. -/
theorem recon_lower (s v : List Char) (hlow : listLower s = s) :
    listLower (s ++ ':' :: '/' :: '/' :: v)
      = s ++ ':' :: '/' :: '/' :: listLower v := by
  rw [listLower_append, hlow]
  rfl

/-- A character outside the lower-case range that avoids `n` and `p` also
avoids any part of the lower-cased `rstripSlashes (n ++ p)`. -/
theorem special_not_mem_sub {x : Char} (hx : ¬(97 ≤ x.toNat ∧ x.toNat ≤ 122))
    {n p : List Char} (hn : x ∉ n) (hp : x ∉ p) {sub : List Char}
    (hsub : ∀ c ∈ sub, c ∈ listLower (rstripSlashes (n ++ p))) : x ∉ sub := by
  intro hmem
  obtain ⟨y, hy, hyc⟩ := mem_listLower (hsub x hmem)
  have hyx : y = x := eq_of_toLower_eq_of_not_lower hx hyc
  subst hyx
  rcases List.mem_append.mp (mem_rstrip hy) with h | h
  · exact hn h
  · exact hp h

/-- Tab/CR/LF-freedom is preserved into the lower-cased strip. -/
theorem not_unsafe_listLower_sub {n p : List Char}
    (hsafe : ∀ c ∈ n ++ p, (c == '\t' || c == '\x0d' || c == '\n') = false)
    {sub : List Char}
    (hsub : ∀ c ∈ sub, c ∈ listLower (rstripSlashes (n ++ p))) :
    ∀ c ∈ sub, (c == '\t' || c == '\x0d' || c == '\n') = false := by
  intro c hc
  obtain ⟨y, hy, hyc⟩ := mem_listLower (hsub c hc)
  have hymem : y ∈ n ++ p := mem_rstrip hy
  have hysafe := hsafe y hymem
  simp only [Bool.or_eq_false_iff, beq_eq_false_iff_ne, ne_eq] at hysafe ⊢
  obtain ⟨⟨hy1, hy2⟩, hy3⟩ := hysafe
  refine ⟨⟨?_, ?_⟩, ?_⟩
  · intro hcc
    rw [hcc] at hyc
    exact hy1 (eq_of_toLower_eq_of_not_lower (by decide) hyc)
  · intro hcc
    rw [hcc] at hyc
    exact hy2 (eq_of_toLower_eq_of_not_lower (by decide) hyc)
  · intro hcc
    rw [hcc] at hyc
    exact hy3 (eq_of_toLower_eq_of_not_lower (by decide) hyc)

/-- The netloc/path split of the reconstructed tail contains no `;` when the
original path contained none (a `;` inside the netloc is consumed by the
netloc part of the split, never the path part). -/
theorem semi_not_mem_tailsplit {n p : List Char}
    (hn_end : ∀ c ∈ n, isNetlocEnd c = false) (hsemi : ';' ∉ p) :
    ';' ∉ (listLower (rstripSlashes (n ++ p))).dropWhile (fun c => !isNetlocEnd c) := by
  have hlow_pass : ∀ m : List Char, (∀ c ∈ m, isNetlocEnd c = false) →
      ∀ c ∈ listLower m, (fun c => !isNetlocEnd c) c = true := by
    intro m hm c hc
    obtain ⟨y, hy, hyc⟩ := mem_listLower hc
    rw [← hyc]
    simpa using isNetlocEnd_toLower_eq_false (hm y hy)
  have hn_noslash : ∀ c ∈ n, ¬c = '/' := by
    intro c hc hcc
    have := hn_end c hc
    rw [hcc] at this
    simp [isNetlocEnd] at this
  by_cases hp : rstripSlashes p = []
  · rw [rstrip_append, if_pos hp, rstrip_of_no_slash hn_noslash]
    rw [dropWhile_eq_nil_of_all (hlow_pass n hn_end)]
    simp
  · rw [rstrip_append, if_neg hp, listLower_append,
      dropWhile_append_all _ (hlow_pass n hn_end)]
    intro hmem
    have hsub := (List.dropWhile_sublist (fun c => !isNetlocEnd c)).mem hmem
    obtain ⟨y, hy, hyc⟩ := mem_listLower hsub
    have : y = ';' := eq_of_toLower_eq_of_not_lower (by decide) hyc
    subst this
    exact hsemi (mem_rstrip hy)

/-! ## Claim C8, amended part — reparsing the reconstruction -/

theorem cleanURL_recon {c0 : Char} {s0 tail : List Char} (halpha : c0.isAlpha = true)
    (hall : (c0 :: s0).all isSchemeChar = true)
    (htail : ∀ c ∈ tail, (c == '\t' || c == '\x0d' || c == '\n') = false) :
    cleanURL ((c0 :: s0) ++ tail) = (c0 :: s0) ++ tail := by
  have hhead : 32 < c0.toNat := by
    have := isAlpha_toNat_bounds halpha
    omega
  have hs_safe : ∀ c ∈ c0 :: s0, (c == '\t' || c == '\x0d' || c == '\n') = false := by
    intro c hc
    have hsc : isSchemeChar c = true := by
      simpa using List.all_eq_true.mp hall c hc
    have h1 : c ≠ '\t' := isSchemeChar_ne hsc (by decide)
    have h2 : c ≠ '\x0d' := isSchemeChar_ne hsc (by decide)
    have h3 : c ≠ '\n' := isSchemeChar_ne hsc (by decide)
    simp [h1, h2, h3]
  show cleanURL (c0 :: (s0 ++ tail)) = c0 :: (s0 ++ tail)
  apply cleanURL_eq_self hhead
  intro x hx
  rcases List.mem_cons.mp hx with heq | hmem
  · rw [heq]
    exact hs_safe c0 (by simp)
  · rcases List.mem_append.mp hmem with h | h
    · exact hs_safe x (by simp [h])
    · exact htail x h

theorem urlsplit_recon_empty {c0 : Char} {s0 : List Char}
    (hall : (c0 :: s0).all isSchemeChar = true) (halpha : c0.isAlpha = true)
    (hclean : cleanURL ((c0 :: s0) ++ [':']) = (c0 :: s0) ++ [':']) :
    urlsplitList ((c0 :: s0) ++ [':']) = some ⟨listLower (c0 :: s0), [], []⟩ := by
  unfold urlsplitList
  rw [hclean]
  have hsch := @splitScheme_recover c0 s0 [] hall halpha
  simp only [hsch]
  rfl

theorem urlsplit_recon {c0 : Char} {s0 v : List Char}
    (hall : (c0 :: s0).all isSchemeChar = true) (halpha : c0.isAlpha = true)
    (hclean : cleanURL ((c0 :: s0) ++ ':' :: '/' :: '/' :: v)
      = (c0 :: s0) ++ ':' :: '/' :: '/' :: v) :
    urlsplitList ((c0 :: s0) ++ ':' :: '/' :: '/' :: v)
      = if ((v.takeWhile (fun c => !isNetlocEnd c)).contains '['
            != (v.takeWhile (fun c => !isNetlocEnd c)).contains ']') = true then none
        else some ⟨listLower (c0 :: s0), v.takeWhile (fun c => !isNetlocEnd c),
          (splitTail '?' (splitTail '#'
            (v.dropWhile (fun c => !isNetlocEnd c))).1).1⟩ := by
  unfold urlsplitList
  rw [hclean]
  have hsch := @splitScheme_recover c0 s0 ('/' :: '/' :: v) hall halpha
  simp only [hsch, splitNetloc_of_slashes]

/-- The key fixed-point lemma: `normalizeList` leaves the lower-cased,
slash-stripped reconstruction of a scheme-led parse unchanged (with no `;`
in the path). -/
theorem normalizeList_fix_recon {c0 : Char} {s0 n p : List Char}
    (hall : (c0 :: s0).all isSchemeChar = true) (halpha : c0.isAlpha = true)
    (hlow : listLower (c0 :: s0) = c0 :: s0)
    (hn_end : ∀ c ∈ n, isNetlocEnd c = false)
    (hpH : '#' ∉ p) (hpQ : '?' ∉ p) (hsemi : ';' ∉ p)
    (hnp_safe : ∀ c ∈ n ++ p, (c == '\t' || c == '\x0d' || c == '\n') = false) :
    normalizeList (listLower (rstripSlashes ((c0 :: s0) ++ ':' :: '/' :: '/' :: (n ++ p))))
      = listLower (rstripSlashes ((c0 :: s0) ++ ':' :: '/' :: '/' :: (n ++ p))) := by
  have hs_noslash : ∀ c ∈ c0 :: s0, ¬c = '/' := by
    intro c hc
    have hsc : isSchemeChar c = true := by
      simpa using List.all_eq_true.mp hall c hc
    exact isSchemeChar_ne hsc (by decide)
  have hnH : '#' ∉ n := by
    intro hmem
    have := hn_end '#' hmem
    simp [isNetlocEnd] at this
  have hnQ : '?' ∉ n := by
    intro hmem
    have := hn_end '?' hmem
    simp [isNetlocEnd] at this
  rw [recon_rstrip _ _ hs_noslash]
  by_cases hw : rstripSlashes (n ++ p) = []
  · -- the tail vanished: the reconstruction is `scheme:`
    rw [if_pos hw]
    have hLA : listLower ((c0 :: s0) ++ [':']) = (c0 :: s0) ++ [':'] := by
      rw [listLower_append, hlow]
      rfl
    rw [hLA]
    have hclean : cleanURL ((c0 :: s0) ++ [':']) = (c0 :: s0) ++ [':'] := by
      apply cleanURL_recon halpha hall
      intro c hc
      simp only [List.mem_singleton] at hc
      rw [hc]
      decide
    have hparse2 : urlparseList ((c0 :: s0) ++ [':'])
        = some ⟨listLower (c0 :: s0), [], []⟩ := by
      unfold urlparseList
      rw [urlsplit_recon_empty hall halpha hclean]
      rfl
    unfold normalizeList
    rw [hparse2, hlow]
    show listLower (rstripSlashes ((c0 :: s0) ++ ':' :: '/' :: '/'
        :: (([] : List Char) ++ ([] : List Char)))) = (c0 :: s0) ++ [':']
    rw [recon_rstrip _ _ hs_noslash]
    rw [if_pos (show rstripSlashes (([] : List Char) ++ ([] : List Char)) = []
      from rfl)]
    exact hLA
  · -- the tail survived: the reconstruction is `scheme://` ++ tail
    rw [if_neg hw]
    rw [recon_lower _ _ hlow]
    have hv_safe : ∀ c ∈ listLower (rstripSlashes (n ++ p)),
        (c == '\t' || c == '\x0d' || c == '\n') = false :=
      not_unsafe_listLower_sub hnp_safe (fun c hc => hc)
    have htail_safe : ∀ c ∈ ':' :: '/' :: '/' :: listLower (rstripSlashes (n ++ p)),
        (c == '\t' || c == '\x0d' || c == '\n') = false := by
      intro c hc
      rcases List.mem_cons.mp hc with h | hc2
      · rw [h]; decide
      rcases List.mem_cons.mp hc2 with h | hc3
      · rw [h]; decide
      rcases List.mem_cons.mp hc3 with h | hc4
      · rw [h]; decide
      · exact hv_safe c hc4
    have hclean := cleanURL_recon halpha hall htail_safe
    have hrecon := urlsplit_recon hall halpha hclean
    by_cases hbr : (((listLower (rstripSlashes (n ++ p))).takeWhile
          (fun c => !isNetlocEnd c)).contains '['
        != ((listLower (rstripSlashes (n ++ p))).takeWhile
          (fun c => !isNetlocEnd c)).contains ']') = true
    · -- the reparse raises `ValueError`: the fallback lower-cases, a no-op
      have hparse2 : urlparseList ((c0 :: s0) ++ ':' :: '/' :: '/'
          :: listLower (rstripSlashes (n ++ p))) = none := by
        unfold urlparseList
        rw [hrecon, if_pos hbr]
        rfl
      unfold normalizeList
      rw [hparse2, recon_lower _ _ hlow, listLower_idem]
    · -- the reparse succeeds and reassembles the same string
      have hsubP : ∀ c ∈ (listLower (rstripSlashes (n ++ p))).dropWhile
          (fun c => !isNetlocEnd c), c ∈ listLower (rstripSlashes (n ++ p)) :=
        fun c hc => (List.dropWhile_sublist _).mem hc
      have hP2H : '#' ∉ (listLower (rstripSlashes (n ++ p))).dropWhile
          (fun c => !isNetlocEnd c) :=
        special_not_mem_sub (by decide) hnH hpH hsubP
      have hP2Q : '?' ∉ (listLower (rstripSlashes (n ++ p))).dropWhile
          (fun c => !isNetlocEnd c) :=
        special_not_mem_sub (by decide) hnQ hpQ hsubP
      have hsemi2 := semi_not_mem_tailsplit hn_end hsemi
      have hX : (splitTail '?' (splitTail '#'
          ((listLower (rstripSlashes (n ++ p))).dropWhile
            (fun c => !isNetlocEnd c))).1).1
          = (listLower (rstripSlashes (n ++ p))).dropWhile
            (fun c => !isNetlocEnd c) := by
        rw [splitTail_of_not_mem hP2H]
        show (splitTail '?' ((listLower (rstripSlashes (n ++ p))).dropWhile
            (fun c => !isNetlocEnd c))).1
          = (listLower (rstripSlashes (n ++ p))).dropWhile (fun c => !isNetlocEnd c)
        rw [splitTail_of_not_mem hP2Q]
      have hparse2 : urlparseList ((c0 :: s0) ++ ':' :: '/' :: '/'
            :: listLower (rstripSlashes (n ++ p)))
          = some ⟨listLower (c0 :: s0),
              (listLower (rstripSlashes (n ++ p))).takeWhile (fun c => !isNetlocEnd c),
              (listLower (rstripSlashes (n ++ p))).dropWhile (fun c => !isNetlocEnd c)⟩ := by
        unfold urlparseList
        rw [hrecon, if_neg hbr, hX]
        show (some ⟨listLower (c0 :: s0),
            (listLower (rstripSlashes (n ++ p))).takeWhile (fun c => !isNetlocEnd c),
            dropParams ((listLower (rstripSlashes (n ++ p))).dropWhile
              (fun c => !isNetlocEnd c))⟩ : Option UrlParts)
          = some ⟨listLower (c0 :: s0),
              (listLower (rstripSlashes (n ++ p))).takeWhile (fun c => !isNetlocEnd c),
              (listLower (rstripSlashes (n ++ p))).dropWhile (fun c => !isNetlocEnd c)⟩
        rw [dropParams_of_not_mem hsemi2]
      unfold normalizeList
      rw [hparse2, hlow]
      show listLower (rstripSlashes ((c0 :: s0) ++ ':' :: '/' :: '/'
          :: ((listLower (rstripSlashes (n ++ p))).takeWhile (fun c => !isNetlocEnd c)
            ++ (listLower (rstripSlashes (n ++ p))).dropWhile (fun c => !isNetlocEnd c))))
        = (c0 :: s0) ++ ':' :: '/' :: '/' :: listLower (rstripSlashes (n ++ p))
      rw [List.takeWhile_append_dropWhile]
      rcases rstrip_last_ne_slash (n ++ p) with hempty | ⟨a, ch, hach, hch⟩
      · exact absurd hempty hw
      · have hch2 : (ch.toLower == '/') = false := by
          have : ch.toLower ≠ '/' := by
            intro hcc
            have : ch = '/' := eq_of_toLower_eq_of_not_lower (by decide) hcc
            rw [this] at hch
            simp at hch
          simpa using this
        have hfix : rstripSlashes (listLower (rstripSlashes (n ++ p)))
            = listLower (rstripSlashes (n ++ p)) := by
          rw [hach, listLower_append]
          exact rstrip_fix hch2
        rw [recon_rstrip _ _ hs_noslash, if_neg (by
          rw [hfix, hach, listLower_append]
          simp [listLower])]
        rw [hfix, recon_lower _ _ hlow, listLower_idem]

/-- C8, amended: `normalize_url` is a pure function (a Lean function by
construction) and is idempotent on every URL whose parse succeeds with a
nonempty scheme and whose parsed path contains no `;` — in particular on
every ordinary `http(s)` URL.  (The counterexample shows the restriction is
needed: a scheme-less input gains a `"://"` prefix on every pass, and a `;`
in the path can be re-split as parameters after the trailing slash is
stripped.) -/
theorem c8_normalize_idempotent_amended (u : String) (r : UrlParts)
    (hparse : urlparseList u.data = some r) (hscheme : r.scheme ≠ [])
    (hsemi : ';' ∉ r.path) :
    normalize_url (normalize_url u) = normalize_url u := by
  rw [normalize_url_eq_normalizeList u,
    normalize_url_eq_normalizeList ⟨normalizeList u.data⟩]
  show (⟨normalizeList (normalizeList u.data)⟩ : String) = ⟨normalizeList u.data⟩
  congr 1
  obtain ⟨hs, hn_end, hpH, hpQ, hncl, hpcl⟩ := urlparse_inv hparse
  rcases hs with h | ⟨hall, ⟨c0, s0, hs0, halpha⟩, hlow⟩
  · exact absurd h hscheme
  rw [hs0] at hall hlow
  have hnp_safe : ∀ c ∈ r.netloc ++ r.path,
      (c == '\t' || c == '\x0d' || c == '\n') = false := by
    intro c hc
    rcases List.mem_append.mp hc with h | h
    · exact mem_cleanURL_not_unsafe (hncl c h)
    · exact mem_cleanURL_not_unsafe (hpcl c h)
  have hL : normalizeList u.data
      = listLower (rstripSlashes ((c0 :: s0) ++ ':' :: '/' :: '/'
          :: (r.netloc ++ r.path))) := by
    unfold normalizeList
    rw [hparse]
    show listLower (rstripSlashes (r.scheme ++ ':' :: '/' :: '/'
        :: (r.netloc ++ r.path))) = _
    rw [hs0]
  rw [hL]
  exact normalizeList_fix_recon hall halpha hlow hn_end hpH hpQ hsemi hnp_safe

/-- C8, witness: idempotence at the concrete URL
`"https://www.Example.com/Path/"`, whose parse has scheme `https` and a
semicolon-free path. -/
theorem c8_normalize_idempotent_amended_witness :
    normalize_url (normalize_url "https://www.Example.com/Path/")
      = normalize_url "https://www.Example.com/Path/" :=
  c8_normalize_idempotent_amended "https://www.Example.com/Path/"
    ⟨"https".data, "www.Example.com".data, "/Path/".data⟩
    (by decide) (by decide) (by decide)

end SerperLeadGen
